import Mathlib

/-!
Verification of the deck-builder backend (inventory sync, deck matching,
deck-list parsing, token cache) via a shallow embedding of the JavaScript
sources into Lean.

Conventions of the embedding:
* JavaScript strings are `String` / `List Char`; `\s` in the source regexes is
  modelled as `Char.isWhitespace` (space, tab, CR, LF).
* SQL `DECIMAL(10,2)` prices are modelled as `ℚ`; numeric ids as `Nat`;
  inventory quantities as `Int` (Shopify can report negative stock).
* The relational tables are lists of rows; `ON CONFLICT ... DO UPDATE`
  upserts update rows in place, inserts append.
* Timestamps (`NOW()`) are explicit `Nat` parameters.
-/

namespace DeckBuilder

/-! ## Generic list/string helpers used by the embedding -/

/-- Drop trailing whitespace (the tail end of JavaScript `String.trim`). -/
def dropTrailingWs (cs : List Char) : List Char :=
  (cs.reverse.dropWhile Char.isWhitespace).reverse

/-- JavaScript `String.prototype.trim` on a list of characters. -/
def listTrim (cs : List Char) : List Char :=
  (dropTrailingWs cs).dropWhile Char.isWhitespace

/-- JavaScript `String.prototype.trim` on a `String`. -/
def strTrim (s : String) : String :=
  String.mk (listTrim s.toList)

/-- JavaScript `String.prototype.toLowerCase` (ASCII case mapping). -/
def strToLower (s : String) : String :=
  String.mk (s.toList.map Char.toLower)

/-- JavaScript `text.split('\n')`. -/
def splitLines : List Char → List (List Char)
  | [] => [[]]
  | c :: rest =>
    if c = '\n' then [] :: splitLines rest
    else
      match splitLines rest with
      | [] => [[c]]
      | l :: ls => (c :: l) :: ls

/-- Split at the first occurrence of `sep` as an infix:
`splitAtInfix sep cs = some (before, after)` for the leftmost occurrence,
`none` if `sep` does not occur.  Models `String.prototype.includes` /
`split(sep)[0]` and first-occurrence `String.prototype.replace`. -/
def splitAtInfix (sep : List Char) : List Char → Option (List Char × List Char)
  | [] => if sep.isPrefixOf ([] : List Char) then some ([], []) else none
  | c :: cs =>
    if sep.isPrefixOf (c :: cs) then some ([], List.drop sep.length (c :: cs))
    else (splitAtInfix sep cs).map (fun pr => (c :: pr.1, pr.2))

/-- Digits (already known to be `0`-`9`) to a natural number, most significant
first.  Models `parseInt(s, 10)` on an all-digit string. -/
def digitsToNat (ds : List Char) : Nat :=
  ds.foldl (fun n c => n * 10 + (c.toNat - 48)) 0

/-! ## `parseProductTitle` (src/services/inventory-sync.js)

The source matches `/^(.+?)\s*\(([^)]+)\)\s*$/`.  The lazy group `(.+?)`
makes the engine try the shortest possible card name first; for a fixed name
the rest of the pattern is deterministic: skip whitespace, expect `(`, take
the run of non-`)` characters (which must be nonempty), expect `)`, and the
remainder must be all whitespace.  `matchTail` is that deterministic tail,
`scanName` is the lazy scan over name lengths. -/

/-- Match `\s*\(([^)]+)\)\s*$` against `rest`; return the group `[^)]+`:
after skipping whitespace the next character must be `(`, the group runs to
the next `)` and must be nonempty, and after that `)` only whitespace may
remain. -/
def matchTail (rest : List Char) : Option (List Char) :=
  if ((rest.dropWhile Char.isWhitespace).head? = some '(') then
    if ((((rest.dropWhile Char.isWhitespace).tail).dropWhile
        (fun x => x ≠ ')')).head? = some ')') then
      if ((rest.dropWhile Char.isWhitespace).tail).takeWhile (fun x => x ≠ ')') ≠ [] ∧
          ((((rest.dropWhile Char.isWhitespace).tail).dropWhile
            (fun x => x ≠ ')')).tail).all Char.isWhitespace then
        some (((rest.dropWhile Char.isWhitespace).tail).takeWhile (fun x => x ≠ ')'))
      else none
    else none
  else none

/-- Lazy scan for `(.+?)` followed by `matchTail`: the name grows one
character at a time (so it is always nonempty), and the first success wins. -/
def scanName (acc : List Char) : List Char → Option (List Char × List Char)
  | [] => none
  | c :: cs =>
    match matchTail cs with
    | some inner => some (acc ++ [c], inner)
    | none => scanName (acc ++ [c]) cs

/-- The name the lazy scan stops at when the rest of the title is a
parenthesized group: the input truncated after its last non-whitespace
character, except that the very first character is always kept (the name
group must be nonempty). -/
def nmOf : List Char → List Char
  | [] => []
  | c :: cs => if cs.all Char.isWhitespace then [c] else c :: nmOf cs

structure TitleParse where
  cardName : String
  setName : Option String
  deriving DecidableEq, Repr

/-- `parseProductTitle(title)` from src/services/inventory-sync.js. -/
def parseProductTitle (title : String) : TitleParse :=
  match scanName [] title.toList with
  | some (nm, inner) => ⟨String.mk (listTrim nm), some (String.mk (listTrim inner))⟩
  | none => ⟨String.mk (listTrim title.toList), none⟩

/-! ## `parseVariantOptions` and `extractNumericId` -/

/-- `parseVariantOptions(variant)`: scan the `{name, value}` option pairs;
a name equal (lower-cased) to `condition`/`conditions` sets the condition,
`finish`/`style`/`type` sets the finish; last write wins. -/
def parseVariantOptions (opts : List (String × String)) : Option String × Option String :=
  opts.foldl
    (fun cf opt =>
      let n := strToLower opt.1
      if n = "condition" ∨ n = "conditions" then (some opt.2, cf.2)
      else if n = "finish" ∨ n = "style" ∨ n = "type" then (cf.1, some opt.2)
      else cf)
    (none, none)

/-- `extractNumericId(gid)`: the trailing `/123` digits of a GraphQL global
id (regex `/\/(\d+)$/`), or `null`. -/
def extractNumericId (gid : String) : Option Nat :=
  let r := gid.toList.reverse
  let ds := r.takeWhile Char.isDigit
  match ds, r.drop ds.length with
  | [], _ => none
  | _ :: _, '/' :: _ => some (digitsToNat ds.reverse)
  | _ :: _, _ => none

/-! ## Relational state (tables created in src/database.js)

`products` and `variants` rows carry their `created_at`/`updated_at`
timestamps explicitly; `id SERIAL` surrogate keys are not modelled (nothing
in the services reads them). -/

structure PVals where
  title : String
  card_name : String
  set_name : Option String
  handle : String
  image_url : Option String
  product_url : String
  deriving DecidableEq, Repr

structure PRow where
  pid : Nat
  vals : PVals
  created : Nat
  updated : Nat
  deriving DecidableEq, Repr

structure VVals where
  condition : Option String
  finish : Option String
  price : ℚ
  quantity : Int
  sku : Option String
  deriving DecidableEq, Repr

structure VRow where
  vid : Nat
  pid : Nat
  vals : VVals
  created : Nat
  updated : Nat
  deriving DecidableEq, Repr

structure DB where
  products : List PRow
  variants : List VRow
  deriving DecidableEq, Repr

/-- Referential integrity enforced by the schema:
`variants.shopify_product_id REFERENCES products(shopify_product_id)`. -/
def FKOk (db : DB) : Prop :=
  ∀ v ∈ db.variants, ∃ r ∈ db.products, r.pid = v.pid

instance (db : DB) : Decidable (FKOk db) := by
  unfold FKOk; infer_instance

/-! ## Raw fetched catalog (shape returned by `fetchAllProducts`) -/

structure RawVariant where
  gid : String
  price : ℚ
  inventoryQuantity : Int
  sku : Option String
  selectedOptions : List (String × String)
  deriving DecidableEq, Repr

structure RawProduct where
  gid : String
  title : String
  handle : String
  imageUrl : Option String
  variants : List RawVariant
  deriving DecidableEq, Repr

/-! ## `syncInventory` (src/services/inventory-sync.js) -/

/-- `process.env.SHOPIFY_STORE_DOMAIN.replace('.myshopify.com', '')`:
remove the first occurrence of the suffix. -/
def stripMyshopify (domain : String) : String :=
  match splitAtInfix ".myshopify.com".toList domain.toList with
  | some (pre, post) => String.mk (pre ++ post)
  | none => domain

/-- Column values written by the product upsert. -/
def prodVals (domain : String) (p : RawProduct) : PVals :=
  let pt := parseProductTitle p.title
  { title := p.title, card_name := pt.cardName, set_name := pt.setName,
    handle := p.handle, image_url := p.imageUrl,
    product_url := "https://" ++ stripMyshopify domain ++ ".com/products/" ++ p.handle }

/-- Column values written by the variant upsert. -/
def varVals (v : RawVariant) : VVals :=
  let cf := parseVariantOptions v.selectedOptions
  { condition := cf.1, finish := cf.2, price := v.price,
    quantity := v.inventoryQuantity, sku := v.sku }

/-- `INSERT ... ON CONFLICT (shopify_product_id) DO UPDATE`: the update
rewrites every mutable column and `updated_at`; the insert also sets
`created_at`. -/
def upsertProduct (T : List PRow) (pid : Nat) (v : PVals) (t : Nat) : List PRow :=
  if ∃ r ∈ T, r.pid = pid then
    T.map (fun r => if r.pid = pid then { r with vals := v, updated := t } else r)
  else T ++ [⟨pid, v, t, t⟩]

/-- `INSERT ... ON CONFLICT (shopify_variant_id) DO UPDATE`: the update sets
condition/finish/price/quantity/sku/`updated_at` but NOT
`shopify_product_id` (absent from the `DO UPDATE SET` list in the source). -/
def upsertVariant (T : List VRow) (vid pid : Nat) (v : VVals) (t : Nat) : List VRow :=
  if ∃ r ∈ T, r.vid = vid then
    T.map (fun r => if r.vid = vid then { r with vals := v, updated := t } else r)
  else T ++ [⟨vid, pid, v, t, t⟩]

/-- One iteration of the variant loop: skip if the numeric id does not
resolve, otherwise upsert. -/
def varUpsert (pid t : Nat) (T : List VRow) (v : RawVariant) : List VRow :=
  match extractNumericId v.gid with
  | none => T
  | some vid => upsertVariant T vid pid (varVals v) t

/-- One iteration of the product loop: skip if the numeric id does not
resolve, otherwise upsert the product and then each resolvable variant. -/
def syncStep (domain : String) (t : Nat) (db : DB) (p : RawProduct) : DB :=
  match extractNumericId p.gid with
  | none => db
  | some pid =>
    { products := upsertProduct db.products pid (prodVals domain p) t,
      variants := p.variants.foldl (varUpsert pid t) db.variants }

/-- `products.map(p => extractNumericId(p.id)).filter(id => id !== null)`. -/
def resolvedIds (P : List RawProduct) : List Nat :=
  P.filterMap (fun p => extractNumericId p.gid)

/-- The resolvable variant ids of one product's variant list. -/
def vidsOf (vs : List RawVariant) : List Nat :=
  vs.filterMap (fun v => extractNumericId v.gid)

/-- The variant ids actually written by a sync: variants with a resolvable
id, under products with a resolvable id. -/
def fetchedVids (P : List RawProduct) : List Nat :=
  (P.filter (fun p => (extractNumericId p.gid).isSome)).flatMap
    (fun p => vidsOf p.variants)

/-- Stale-product deletion: `DELETE FROM products WHERE shopify_product_id
!= ALL($1)` — executed only when at least one id resolved
(`if (shopifyProductIds.length > 0)`); the FK cascade removes the variants
of each deleted product row. -/
def deletePhase (db : DB) (ids : List Nat) : DB :=
  if ids = [] then db
  else
    { products := db.products.filter (fun r => r.pid ∈ ids),
      variants := db.variants.filter (fun r =>
        r.pid ∉ (db.products.filter (fun q => q.pid ∉ ids)).map (fun q => q.pid)) }

/-- The committed effect of the write phase of a successful sync. -/
def syncWrite (db : DB) (P : List RawProduct) (domain : String) (t : Nat) : DB :=
  deletePhase (P.foldl (syncStep domain t) db) (resolvedIds P)

/-! ## Sync audit log (`sync_log` table) and the full `syncInventory` run -/

structure SyncRun where
  ident : Nat
  started : Nat
  finished : Option Nat
  productsSynced : Nat
  variantsSynced : Nat
  status : String
  errorMessage : Option String
  deriving DecidableEq, Repr

structure SyncStats where
  productCount : Nat
  variantCount : Nat
  deriving DecidableEq, Repr

structure SyncOutcome where
  db : DB
  log : List SyncRun
  result : Except String SyncStats
  deriving Repr

/-- `UPDATE sync_log ... WHERE id = $n`. -/
def updateRun (log : List SyncRun) (i : Nat) (f : SyncRun → SyncRun) : List SyncRun :=
  log.map (fun r => if r.ident = i then f r else r)

/-- The sequence of statements issued inside the transaction: one step per
fetched product, then the stale-product delete. -/
def writeOps (P : List RawProduct) (domain : String) (t : Nat) : List (DB → DB) :=
  P.map (fun p db => syncStep domain t db p) ++ [fun db => deletePhase db (resolvedIds P)]

/-- The transaction-local state after the first `k` write statements. -/
def applyOps (db : DB) (ops : List (DB → DB)) (k : Nat) : DB :=
  (ops.take k).foldl (fun d f => f d) db

/-- `ROLLBACK`: the transaction-local writes are discarded and the durable
state is the pre-transaction state. -/
def rollback (pre : DB) (_working : DB) : DB := pre

/-- `syncInventory()`.  `fetched` is the outcome of the network fetch phase;
`failAt = some (k, m)` means the write phase throws (message `m`) after `k`
statements of the open transaction; `tstart`/`tfin` are the `NOW()` values
of the opening insert and of everything at the end of the run.  The sync_log
insert runs before the transaction and the terminal update after
commit/rollback, matching the source. -/
def syncInventoryModel (db : DB) (log : List SyncRun)
    (fetched : Except String (List RawProduct)) (failAt : Option (Nat × String))
    (domain : String) (tstart tfin : Nat) : SyncOutcome :=
  let runId := log.length + 1
  let log1 := log ++ [⟨runId, tstart, none, 0, 0, "running", none⟩]
  match fetched with
  | .error m =>
    ⟨db,
     updateRun log1 runId
       (fun r => { r with finished := some tfin, status := "failed", errorMessage := some m }),
     .error m⟩
  | .ok P =>
    match failAt with
    | some (k, m) =>
      let working := applyOps db (writeOps P domain tfin) k
      ⟨rollback db working,
       updateRun log1 runId
         (fun r => { r with finished := some tfin, status := "failed", errorMessage := some m }),
       .error m⟩
    | none =>
      ⟨syncWrite db P domain tfin,
       updateRun log1 runId
         (fun r =>
           { r with
             finished := some tfin
             productsSynced := (resolvedIds P).length
             variantsSynced := (fetchedVids P).length
             status := "completed" }),
       .ok ⟨(resolvedIds P).length, (fetchedVids P).length⟩⟩

/-! ## Timestamp-stripped view of the tables

For the idempotence analysis (`updated_at` changes on every write) each row
is projected to everything except `updated_at`, and the write phase is
repeated on the projected state; a simulation lemma connects the two. -/

structure PRowS where
  pid : Nat
  vals : PVals
  created : Nat
  deriving DecidableEq, Repr

structure VRowS where
  vid : Nat
  pid : Nat
  vals : VVals
  created : Nat
  deriving DecidableEq, Repr

structure DBS where
  products : List PRowS
  variants : List VRowS
  deriving DecidableEq, Repr

def stripP (r : PRow) : PRowS := ⟨r.pid, r.vals, r.created⟩

def stripV (r : VRow) : VRowS := ⟨r.vid, r.pid, r.vals, r.created⟩

/-- Project both tables to all columns except `updated_at`. -/
def stripDB (db : DB) : DBS := ⟨db.products.map stripP, db.variants.map stripV⟩

def upsertProductS (T : List PRowS) (pid : Nat) (v : PVals) (t : Nat) : List PRowS :=
  if ∃ r ∈ T, r.pid = pid then
    T.map (fun r => if r.pid = pid then { r with vals := v } else r)
  else T ++ [⟨pid, v, t⟩]

def upsertVariantS (T : List VRowS) (vid pid : Nat) (v : VVals) (t : Nat) : List VRowS :=
  if ∃ r ∈ T, r.vid = vid then
    T.map (fun r => if r.vid = vid then { r with vals := v } else r)
  else T ++ [⟨vid, pid, v, t⟩]

def varUpsertS (pid t : Nat) (T : List VRowS) (v : RawVariant) : List VRowS :=
  match extractNumericId v.gid with
  | none => T
  | some vid => upsertVariantS T vid pid (varVals v) t

def syncStepS (domain : String) (t : Nat) (db : DBS) (p : RawProduct) : DBS :=
  match extractNumericId p.gid with
  | none => db
  | some pid =>
    { products := upsertProductS db.products pid (prodVals domain p) t,
      variants := p.variants.foldl (varUpsertS pid t) db.variants }

def deletePhaseS (db : DBS) (ids : List Nat) : DBS :=
  if ids = [] then db
  else
    { products := db.products.filter (fun r => r.pid ∈ ids),
      variants := db.variants.filter (fun r =>
        r.pid ∉ (db.products.filter (fun q => q.pid ∉ ids)).map (fun q => q.pid)) }

def syncWriteS (db : DBS) (P : List RawProduct) (domain : String) (t : Nat) : DBS :=
  deletePhaseS (P.foldl (syncStepS domain t) db) (resolvedIds P)

/-! ## `matchDeckList` and `getBestConditionForEach` (deck-matcher service) -/

/-- The `CASE v.condition WHEN ... ELSE 6 END` rank of the SQL `ORDER BY`
(a NULL condition falls to the `ELSE` branch). -/
def condCase (c : Option String) : Nat :=
  match c with
  | some s =>
    if s = "Near Mint" then 1
    else if s = "Lightly Played" then 2
    else if s = "Moderately Played" then 3
    else if s = "Heavily Played" then 4
    else if s = "Damaged" then 5
    else 6
  | none => 6

/-- `name.trim().toLowerCase()`. -/
def normName (s : String) : String := strToLower (strTrim s)

/-- One row of the matcher's SQL result set. -/
structure QRow where
  card_name : String
  set_name : Option String
  title : String
  image_url : Option String
  product_url : String
  handle : String
  variantId : Nat
  condition : Option String
  finish : Option String
  price : ℚ
  quantity : Int
  sku : Option String
  deriving DecidableEq, Repr

def mkQRow (p : PRow) (v : VRow) : QRow :=
  ⟨p.vals.card_name, p.vals.set_name, p.vals.title, p.vals.image_url,
   p.vals.product_url, p.vals.handle, v.vid, v.vals.condition, v.vals.finish,
   v.vals.price, v.vals.quantity, v.vals.sku⟩

/-- The unordered result set of the matcher's query:
`products JOIN variants` with `LOWER(card_name) = ANY($1)` and
`quantity > 0`. -/
def rawRows (db : DB) (normalizedNames : List String) : List QRow :=
  db.products.flatMap (fun p =>
    (db.variants.filter (fun v =>
      v.pid = p.pid ∧ strToLower p.vals.card_name ∈ normalizedNames ∧ v.vals.quantity > 0)).map
      (mkQRow p))

/-- Strict lexicographic order on character lists (code-point order: the
deterministic byte-wise collation Postgres uses for `ORDER BY` text). -/
def charListLtB : List Char → List Char → Bool
  | [], [] => false
  | [], _ :: _ => true
  | _ :: _, [] => false
  | a :: as, b :: bs => if a < b then true else if b < a then false else charListLtB as bs

/-- The SQL `ORDER BY p.card_name, v.price ASC, CASE v.condition ... END`
as a total preorder. -/
def rowLE (a b : QRow) : Prop :=
  charListLtB a.card_name.toList b.card_name.toList = true ∨
    (a.card_name = b.card_name ∧
      (a.price < b.price ∨
        (a.price = b.price ∧ condCase a.condition ≤ condCase b.condition)))

instance : DecidableRel rowLE := fun a b => by
  unfold rowLE; infer_instance

/-- The ordered result set of the matcher's query. -/
def sortedRows (db : DB) (normalizedNames : List String) : List QRow :=
  List.insertionSort rowLE (rawRows db normalizedNames)

/-- One printing in a match result (`grouped[key].printings` entries). -/
structure Printing where
  setName : Option String
  title : String
  imageUrl : Option String
  productUrl : String
  handle : String
  variantId : String
  condition : Option String
  finish : Option String
  price : ℚ
  quantity : Int
  sku : Option String
  deriving DecidableEq, Repr

def toPrinting (r : QRow) : Printing :=
  ⟨r.set_name, r.title, r.image_url, r.product_url, r.handle,
   toString r.variantId, r.condition, r.finish, r.price, r.quantity, r.sku⟩

structure MatchResult where
  requested : String
  found : Bool
  cardName : String
  printings : List Printing
  deriving DecidableEq, Repr

/-- The entry produced for one requested name: rows are grouped by
lower-cased card name in result-set order (`grouped[key]`), and the name is
mapped back to its group or to the not-found placeholder. -/
def mkResult (db : DB) (names : List String) (name : String) : MatchResult :=
  match (sortedRows db (names.map normName)).filter
      (fun r => strToLower r.card_name = normName name) with
  | [] => ⟨strTrim name, false, strTrim name, []⟩
  | r :: rs => ⟨strTrim name, true, r.card_name, (r :: rs).map toPrinting⟩

/-- `matchDeckList(cardNames)` from the deck-matcher service. -/
def matchDeckList (db : DB) (cardNames : List String) : List MatchResult :=
  if cardNames.isEmpty then []
  else cardNames.map (mkResult db cardNames)

/-- The claimed intra-card ordering contract: price ascending, ties broken
by the fixed condition rank. -/
def printingLE (a b : Printing) : Prop :=
  a.price < b.price ∨ (a.price = b.price ∧ condCase a.condition ≤ condCase b.condition)

instance : DecidableRel printingLE := fun a b => by
  unfold printingLE; infer_instance

/-- `conditionOrder.indexOf(x)` where
`conditionOrder = ['Near Mint', 'Lightly Played', 'Moderately Played',
'Heavily Played', 'Damaged']`: `-1` when the condition is null or not in
the list. -/
def condIndexJS (c : Option String) : Int :=
  if c = some "Near Mint" then 0
  else if c = some "Lightly Played" then 1
  else if c = some "Moderately Played" then 2
  else if c = some "Heavily Played" then 3
  else if c = some "Damaged" then 4
  else -1

/-- The comparator of `getBestConditionForEach`:
condition index first, price second (a stable sort, as ECMAScript
`Array.prototype.sort` is). -/
def bestCondRel (a b : Printing) : Prop :=
  condIndexJS a.condition < condIndexJS b.condition ∨
    (condIndexJS a.condition = condIndexJS b.condition ∧ a.price ≤ b.price)

instance : DecidableRel bestCondRel := fun a b => by
  unfold bestCondRel; infer_instance

/-- `{...card, selected}`: the match result plus the selected printing. -/
structure SelectedResult where
  card : MatchResult
  selected : Option Printing
  deriving DecidableEq, Repr

/-- `getBestConditionForEach(cardNames)`: re-sort a copy (`[...printings]`)
of each card's printings by the comparator and select the first. -/
def getBestConditionForEach (db : DB) (cardNames : List String) : List SelectedResult :=
  (matchDeckList db cardNames).map (fun card =>
    if card.found = false ∨ card.printings = [] then ⟨card, none⟩
    else ⟨card, (List.insertionSort bestCondRel card.printings).head?⟩)

/-! ## `parseTextDeckList` (deck-parser service)

The quantity-line regex is
`/^(\d+)\s*x?\s+(.+?)(?:\s*[\(\[][\w\d]+[\)\]])?(?:\s+\*\w+\*)?(?:\s+#\S+)?$/i`.
Because the three trailing groups are optional and `(.+?)` is lazy, a match
exists for the earliest name start (maximal `\s*x?\s+` consumption first,
backtracking to shorter whitespace), with the shortest name whose remainder
is consumable by the optional groups.  `l1prefix`/`l2prefix`/`isL3` are the
three optional groups, `canConsume` the remainder test, `findName` the lazy
name scan and `tryWsName` the whitespace backtracking. -/

/-- `\w` of the source regex: `[A-Za-z0-9_]`. -/
def isWordChar (c : Char) : Bool := c.isAlphanum ∨ c = '_'

/-- Consume `\s*[\(\[][\w\d]+[\)\]]` from the front, returning the rest. -/
def l1prefix (R : List Char) : Option (List Char) :=
  match R.dropWhile Char.isWhitespace with
  | c :: r2 =>
    if c = '(' ∨ c = '[' then
      let w := r2.takeWhile isWordChar
      match r2.dropWhile isWordChar with
      | d :: rest => if (d = ')' ∨ d = ']') ∧ w ≠ [] then some rest else none
      | [] => none
    else none
  | [] => none

/-- Consume `\s+\*\w+\*` from the front, returning the rest. -/
def l2prefix (R : List Char) : Option (List Char) :=
  if (R.takeWhile Char.isWhitespace) = [] then none
  else
    match R.dropWhile Char.isWhitespace with
    | c :: r2 =>
      if c = '*' then
        let w := r2.takeWhile isWordChar
        match r2.dropWhile isWordChar with
        | d :: rest => if d = '*' ∧ w ≠ [] then some rest else none
        | [] => none
      else none
    | [] => none

/-- Does `\s+#\S+$` match the whole of `R`? -/
def isL3 (R : List Char) : Bool :=
  if (R.takeWhile Char.isWhitespace) = [] then false
  else
    match R.dropWhile Char.isWhitespace with
    | c :: r2 => c = '#' ∧ r2 ≠ [] ∧ r2.all (fun x => ¬ x.isWhitespace)
    | [] => false

/-- Can `(?:\s+#\S+)?$` consume all of `R`? -/
def canC3 (R : List Char) : Bool := R.isEmpty || isL3 R

/-- Can `(?:\s+\*\w+\*)?(?:\s+#\S+)?$` consume all of `R`? -/
def canC23 (R : List Char) : Bool :=
  canC3 R ||
    match l2prefix R with
    | some rem => canC3 rem
    | none => false

/-- Can the three optional trailing groups consume all of `R`? -/
def canConsume (R : List Char) : Bool :=
  canC23 R ||
    match l1prefix R with
    | some rem => canC23 rem
    | none => false

/-- Lazy `(.+?)`: the shortest nonempty name whose remainder is consumable
by the optional trailing groups. -/
def findName (acc : List Char) : List Char → Option (List Char)
  | [] => none
  | c :: cs => if canConsume cs then some (acc ++ [c]) else findName (acc ++ [c]) cs

/-- `\s+` backtracking: try consuming `j` whitespace characters, then
`j - 1`, ..., down to `1`, running the lazy name scan on what remains. -/
def tryWsName (xs : List Char) : Nat → Option (List Char)
  | 0 => none
  | j + 1 =>
    match findName [] (xs.drop (j + 1)) with
    | some nm => some nm
    | none => tryWsName xs j

/-- Match `\s*x?\s+(.+?)(groups)?$` after the digits; the `x` branch (the
optional `x`/`X` with `/i`) is preferred, falling back to no-`x`. -/
def matchAfterQty (r0 : List Char) : Option (List Char) :=
  let k := (r0.takeWhile Char.isWhitespace).length
  let xTry :=
    match r0.drop k with
    | c :: rest =>
      if c = 'x' ∨ c = 'X' then tryWsName rest ((rest.takeWhile Char.isWhitespace).length)
      else none
    | [] => none
  match xTry with
  | some nm => some nm
  | none => tryWsName r0 k

/-- The whole quantity-line regex: leading digits (`parseInt` base 10),
then `matchAfterQty`; returns `(quantity, raw name group)`. -/
def matchQtyLine (cs : List Char) : Option (Nat × List Char) :=
  let ds := cs.takeWhile Char.isDigit
  if ds = [] then none
  else (matchAfterQty (cs.drop ds.length)).map (fun nm => (digitsToNat ds, nm))

/-- Double-faced card handling: `split(' // ')[0].trim()` when the name
contains `' // '`. -/
def frontFace (cs : List Char) : List Char :=
  match splitAtInfix " // ".toList cs with
  | some (pre, _) => listTrim pre
  | none => cs

/-- `replace(/\s*\(\d+\)\s*$/, '')`: strip a trailing parenthesized
collector number together with the whitespace around it. -/
def collectorStrip (cs : List Char) : List Char :=
  match cs.reverse.dropWhile Char.isWhitespace with
  | c :: r2 =>
    if c = ')' then
      let ds := r2.takeWhile Char.isDigit
      match ds, r2.drop ds.length with
      | _ :: _, '(' :: r3 => (r3.dropWhile Char.isWhitespace).reverse
      | _, _ => cs
    else cs
  | [] => cs

/-- The name cleanup applied to the regex's name group:
trim, take the front face, strip the collector number, trim. -/
def stripName (nm : List Char) : List Char :=
  listTrim (collectorStrip (frontFace (listTrim nm)))

/-- The bare section-header keywords of
`/^(Deck|Sideboard|Commander|Companion|Maybeboard|About|COMMANDER:|SIDEBOARD:|MAINBOARD:)\s*$/i`,
lower-cased (the line is already trimmed, so `\s*$` is vacuous). -/
def headerNames : List String :=
  ["deck", "sideboard", "commander", "companion", "maybeboard", "about",
   "commander:", "sideboard:", "mainboard:"]

/-- Section-header test: `//`- or `#`-prefixed, or a bare keyword. -/
def isHeader (line : String) : Bool :=
  "//".toList.isPrefixOf line.toList || "#".toList.isPrefixOf line.toList ||
    headerNames.contains (strToLower line)

inductive LineOut where
  | skip : LineOut
  | card : String → Nat → LineOut
  | err : String → LineOut
  deriving DecidableEq, Repr

/-- The card-or-error outcome of a non-blank, non-header (already trimmed)
line: quantity-pattern match with cleanup and validation, else the
bare-name / unparseable fallback. -/
def lineParse (line : List Char) : LineOut :=
  match matchQtyLine line with
  | some (q, nm) =>
    if stripName nm ≠ [] ∧ q > 0 then .card (String.mk (stripName nm)) q
    else .err "Invalid quantity or empty card name"
  | none =>
    if line.length > 1 ∧ ¬ line.all Char.isDigit then
      .card (String.mk (frontFace line)) 1
    else .err "Could not parse line"

/-- What one input line contributes: nothing (blank/header), one card, or
one error. -/
def lineOutcome (raw : String) : LineOut :=
  if (strTrim raw).toList = [] then .skip
  else if isHeader (strTrim raw) then .skip
  else lineParse (strTrim raw).toList

structure ParsedCard where
  name : String
  quantity : Nat
  deriving DecidableEq, Repr

structure ParseError where
  line : Nat
  text : String
  reason : String
  deriving DecidableEq, Repr

structure ParsedDeck where
  cards : List ParsedCard
  errors : List ParseError
  deriving DecidableEq, Repr

/-- One loop iteration of `parseTextDeckList`: the accumulator carries the
cards/errors so far and the 0-based index of the current line (error
entries record the 1-based line number and the trimmed line). -/
def parseStep (acc : ParsedDeck × Nat) (l : String) : ParsedDeck × Nat :=
  match lineOutcome l with
  | .skip => (acc.1, acc.2 + 1)
  | .card n q => (⟨acc.1.cards ++ [⟨n, q⟩], acc.1.errors⟩, acc.2 + 1)
  | .err reason => (⟨acc.1.cards, acc.1.errors ++ [⟨acc.2 + 1, strTrim l, reason⟩]⟩, acc.2 + 1)

/-- `parseTextDeckList(text)`: process each line, accumulating cards and
errors. -/
def parseTextDeckList (text : String) : ParsedDeck :=
  (((splitLines text.toList).map String.mk).foldl parseStep (⟨[], []⟩, 0)).1

/-- A line that the parser does not skip: neither blank after trimming nor
a recognized section header. -/
def contributes (l : String) : Bool :=
  !(strTrim l).toList.isEmpty && !isHeader (strTrim l)

/-! ## `getAccessToken` (src/services/shopify-auth.js) -/

structure AuthEnv where
  clientId : Option String
  clientSecret : Option String
  storeDomain : Option String
  deriving DecidableEq, Repr

/-- JavaScript truthiness of a possibly-missing environment string:
`undefined`/absent and the empty string are falsy. -/
def truthyOpt : Option String → Bool
  | none => false
  | some s => s ≠ ""

/-- How a call to `getAccessToken` proceeds: return the cached token, throw
the missing-credentials configuration error, or go on to the network token
exchange.  The first two happen before any network request. -/
inductive AuthStep where
  | useCached : String → AuthStep
  | configFail : AuthStep
  | fetchToken : AuthStep
  deriving DecidableEq, Repr

/-- `if (!clientId || !clientSecret || !storeDomain) throw ...`. -/
def authCredCheck (env : AuthEnv) : AuthStep :=
  if truthyOpt env.clientId = false ∨ truthyOpt env.clientSecret = false ∨
      truthyOpt env.storeDomain = false then
    .configFail
  else .fetchToken

/-- The branching of `getAccessToken()`: cached-token fast path
(`if (cachedToken && Date.now() < tokenExpiresAt - 60000)`, a 60-second
safety margin), then the credential check, then the network exchange. -/
def getAccessTokenStep (cachedToken : Option String) (tokenExpiresAt now : Int)
    (env : AuthEnv) : AuthStep :=
  match cachedToken with
  | some t =>
    if t ≠ "" ∧ now < tokenExpiresAt - 60000 then .useCached t else authCredCheck env
  | none => authCredCheck env

/-! ## Concrete instances used in counterexamples and witnesses -/

/-- Pre-sync state holding one product (id 1) for the empty-fetch scenario. -/
def dbC1 : DB :=
  ⟨[⟨1, ⟨"Old (S)", "Old", some "S", "old-s", none, "https://store.com/products/old-s"⟩, 0, 0⟩], []⟩

/-- Pre-sync state with a product (id 2) and its variant, satisfying the FK. -/
def dbC1w : DB :=
  ⟨[⟨2, ⟨"Old (S)", "Old", some "S", "old-s", none, "https://store.com/products/old-s"⟩, 0, 0⟩],
   [⟨20, 2, ⟨some "Near Mint", none, 1, 1, none⟩, 0, 0⟩]⟩

/-- A one-product catalog as fetched from the upstream. -/
def rawC1 : List RawProduct :=
  [⟨"gid://shopify/Product/5", "New (S)", "new-s", none,
    [⟨"gid://shopify/ProductVariant/50", 2, 4, none, [("Condition", "NM")]⟩]⟩]

/-- Two in-stock products whose card names differ only in case, so the
matcher groups them under one lower-cased key. -/
def dbC4 : DB :=
  ⟨[⟨1, ⟨"AA (S)", "AA", some "S", "h1", none, "u1"⟩, 0, 0⟩,
    ⟨2, ⟨"Aa (S)", "Aa", some "S", "h2", none, "u2"⟩, 0, 0⟩],
   [⟨11, 1, ⟨some "Near Mint", none, 10, 1, none⟩, 0, 0⟩,
    ⟨12, 2, ⟨some "Near Mint", none, 5, 1, none⟩, 0, 0⟩]⟩

/-- One product with printings priced 5.00 NM, 3.00 LP, 3.00 NM. -/
def dbC4w : DB :=
  ⟨[⟨1, ⟨"Sol Ring (A)", "Sol Ring", some "A", "h", none, "u"⟩, 0, 0⟩],
   [⟨11, 1, ⟨some "Near Mint", none, 5, 3, none⟩, 0, 0⟩,
    ⟨12, 1, ⟨some "Lightly Played", none, 3, 1, none⟩, 0, 0⟩,
    ⟨13, 1, ⟨some "Near Mint", none, 3, 2, none⟩, 0, 0⟩]⟩

/-- One product with a $1 printing of unrecognized condition "Foo" and a
$10 Near Mint printing. -/
def dbC5 : DB :=
  ⟨[⟨1, ⟨"Sol Ring (A)", "Sol Ring", some "A", "h", none, "u"⟩, 0, 0⟩],
   [⟨11, 1, ⟨some "Near Mint", none, 10, 1, none⟩, 0, 0⟩,
    ⟨12, 1, ⟨some "Foo", none, 1, 1, none⟩, 0, 0⟩]⟩

/-- Pre-sync state for the idempotence counterexample: variant 10 currently
belongs to product 2, but the fetched catalog lists it under product 1. -/
def dbC6 : DB :=
  ⟨[⟨2, ⟨"Old (S)", "Old", some "S", "old-s", none, "https://store.com/products/old-s"⟩, 0, 0⟩],
   [⟨10, 2, ⟨some "Near Mint", none, 1, 1, none⟩, 0, 0⟩]⟩

/-- Catalog listing variant 10 under product 1. -/
def rawC6 : List RawProduct :=
  [⟨"gid://shopify/Product/1", "New (S)", "new-s", none,
    [⟨"gid://shopify/ProductVariant/10", 2, 4, none, [("Condition", "NM")]⟩]⟩]

/-! # Theorems

Generic list helpers first, then the claims. -/

theorem map_id_on {α : Type} {f : α → α} :
    ∀ {l : List α}, (∀ a ∈ l, f a = a) → l.map f = l := by
  intro l h
  induction l with
  | nil => rfl
  | cons a t ih =>
    simp only [List.map_cons, h a (List.mem_cons_self a t),
      ih fun b hb => h b (List.mem_cons_of_mem a hb)]

theorem foldl_fixed {α β : Type} (f : α → β → α) (y : α) :
    ∀ L : List β, (∀ b ∈ L, f y b = y) → L.foldl f y = y := by
  intro L
  induction L with
  | nil => intro; rfl
  | cons b t ih =>
    intro h
    rw [List.foldl_cons, h b (List.mem_cons_self b t)]
    exact ih fun x hx => h x (List.mem_cons_of_mem _ hx)

/-! ## C9: token cache fast path and credential check -/

/-- C9: for every call to `getAccessToken`, a (truthy) cached token whose
expiry minus the 60-second safety margin lies in the future is returned
directly with no network request; otherwise a missing client id, client
secret, or store domain fails with the configuration error before any
network call. -/
theorem C9_token_cache :
    (∀ (t : String) (expiry now : Int) (env : AuthEnv),
      t ≠ "" → now < expiry - 60000 →
      getAccessTokenStep (some t) expiry now env = .useCached t) ∧
    (∀ (cached : Option String) (expiry now : Int) (env : AuthEnv),
      (∀ t, cached = some t → t = "" ∨ ¬ now < expiry - 60000) →
      (truthyOpt env.clientId = false ∨ truthyOpt env.clientSecret = false ∨
        truthyOpt env.storeDomain = false) →
      getAccessTokenStep cached expiry now env = .configFail) := by
  constructor
  · intro t expiry now env h1 h2
    simp [getAccessTokenStep, h1, h2]
  · intro cached expiry now env hmiss hcred
    cases cached with
    | none => simp [getAccessTokenStep, authCredCheck, hcred]
    | some t =>
      rcases hmiss t rfl with h | h
      · simp [getAccessTokenStep, h, authCredCheck, hcred]
      · simp [getAccessTokenStep, h, authCredCheck, hcred]

theorem C9_witness :
    getAccessTokenStep (some "tok") 1000000 0 ⟨none, none, none⟩ = .useCached "tok" ∧
    getAccessTokenStep none 0 0 ⟨some "id", none, some "dom"⟩ = .configFail :=
  ⟨C9_token_cache.1 "tok" 1000000 0 ⟨none, none, none⟩ (by decide) (by decide),
   C9_token_cache.2 none 0 0 ⟨some "id", none, some "dom"⟩ (fun t h => by cases h) (by decide)⟩

/-! ## C2: write-phase failure rolls back and is recorded -/

/-- C2: whenever the write phase throws after the transaction is opened,
the durable products/variants tables are exactly the pre-sync state
(`ROLLBACK`), the function rethrows the error, and the sync_log row created
for this run ends with status `failed`, a non-null error message, and a
non-null finish time. -/
theorem C2_write_failure_rollback (db : DB) (log : List SyncRun)
    (P : List RawProduct) (k : Nat) (m domain : String) (t1 t2 : Nat) :
    (syncInventoryModel db log (.ok P) (some (k, m)) domain t1 t2).db = db ∧
    (syncInventoryModel db log (.ok P) (some (k, m)) domain t1 t2).result = .error m ∧
    (syncInventoryModel db log (.ok P) (some (k, m)) domain t1 t2).log.getLast? =
      some ⟨log.length + 1, t1, some t2, 0, 0, "failed", some m⟩ := by
  refine ⟨rfl, rfl, ?_⟩
  show (updateRun (log ++ [⟨log.length + 1, t1, none, 0, 0, "running", none⟩])
      (log.length + 1) _).getLast? = _
  unfold updateRun
  rw [List.map_append, List.map_singleton, List.getLast?_concat]
  simp

/-! ## C10: `getBestConditionForEach` only adds the `selected` field -/

/-- C10: every entry of `getBestConditionForEach` carries exactly the
corresponding `matchDeckList` entry (same printings, same order — the
condition-first sort is applied to a copy only), and a not-found card gets
`selected = null`. -/
theorem C10_frame (db : DB) (names : List String) :
    (getBestConditionForEach db names).map SelectedResult.card = matchDeckList db names ∧
    ∀ s ∈ getBestConditionForEach db names, s.card.found = false → s.selected = none := by
  constructor
  · unfold getBestConditionForEach
    rw [List.map_map]
    have h : ∀ c ∈ matchDeckList db names,
        (SelectedResult.card ∘ fun card =>
          if card.found = false ∨ card.printings = [] then SelectedResult.mk card none
          else ⟨card, (List.insertionSort bestCondRel card.printings).head?⟩) c = c := by
      intro c _
      by_cases hc : c.found = false ∨ c.printings = []
      · simp [hc]
      · simp [hc]
    exact map_id_on h
  · intro s hs hfound
    unfold getBestConditionForEach at hs
    rcases List.mem_map.mp hs with ⟨c, _, rfl⟩
    by_cases hc : c.found = false ∨ c.printings = []
    · simp [hc]
    · exfalso
      apply hc
      left
      simpa [hc] using hfound

theorem C10_witness :
    ((getBestConditionForEach (⟨[], []⟩ : DB) ["A"]).map SelectedResult.card =
      matchDeckList (⟨[], []⟩ : DB) ["A"]) ∧
    SelectedResult.selected ⟨⟨"A", false, "A", []⟩, none⟩ = none :=
  ⟨(C10_frame ⟨[], []⟩ ["A"]).1,
   (C10_frame ⟨[], []⟩ ["A"]).2 ⟨⟨"A", false, "A", []⟩, none⟩ (by decide) (by decide)⟩

/-! ## C5: the best-condition selector ranks unknown conditions first -/

/-- C5 (failing input): on printings `[{Near Mint, $10}, {Foo, $1}]` the
code selects the `Foo` printing: `conditionOrder.indexOf` yields `-1` for a
condition outside the known list, which sorts *before* Near Mint's index 0,
whereas the claim requires unknown conditions at lowest priority (as the
matcher's SQL `ELSE 6` rank indeed does). -/
theorem C5_unknown_condition_selected_first :
    ((getBestConditionForEach dbC5 ["Sol Ring"]).map
      (fun r => r.selected.map (fun p => (p.condition, p.price))) =
      [some (some "Foo", (1 : ℚ))]) ∧
    (∃ c ∈ matchDeckList dbC5 ["Sol Ring"],
      ∃ p ∈ c.printings, p.condition = some "Near Mint") := by
  constructor
  · decide
  · decide

/-! ## C1: post-sync reconciliation invariants -/

theorem upsertProduct_mem_pres {T : List PRow} {pid : Nat} {v : PVals} {t q : Nat}
    (h : ∃ r ∈ T, r.pid = q) : ∃ r ∈ upsertProduct T pid v t, r.pid = q := by
  unfold upsertProduct
  split
  · rcases h with ⟨r0, hr0, hq⟩
    refine ⟨if r0.pid = pid then { r0 with vals := v, updated := t } else r0,
      List.mem_map.mpr ⟨r0, hr0, rfl⟩, ?_⟩
    split <;> simpa using hq
  · rcases h with ⟨r0, hr0, hq⟩
    exact ⟨r0, List.mem_append_left _ hr0, hq⟩

theorem upsertProduct_mem_self {T : List PRow} {pid : Nat} {v : PVals} {t : Nat} :
    ∃ r ∈ upsertProduct T pid v t, r.pid = pid := by
  unfold upsertProduct
  split
  · rename_i h
    rcases h with ⟨r0, hr0, hq⟩
    refine ⟨if r0.pid = pid then { r0 with vals := v, updated := t } else r0,
      List.mem_map.mpr ⟨r0, hr0, rfl⟩, ?_⟩
    split <;> simpa using hq
  · exact ⟨⟨pid, v, t, t⟩, List.mem_append_right _ (List.mem_singleton.mpr rfl), rfl⟩

theorem varUpsert_cases {pid t : Nat} {T : List VRow} {v : RawVariant} :
    ∀ v2 ∈ varUpsert pid t T v, v2.pid = pid ∨ ∃ r0 ∈ T, v2.pid = r0.pid := by
  intro v2 hv2
  unfold varUpsert at hv2
  cases hx : extractNumericId v.gid with
  | none =>
    rw [hx] at hv2
    exact Or.inr ⟨v2, hv2, rfl⟩
  | some vid =>
    simp only [hx] at hv2
    unfold upsertVariant at hv2
    split at hv2
    · rcases List.mem_map.mp hv2 with ⟨r0, hr0, rfl⟩
      right
      refine ⟨r0, hr0, ?_⟩
      split <;> rfl
    · rcases List.mem_append.mp hv2 with h | h
      · exact Or.inr ⟨v2, h, rfl⟩
      · rw [List.mem_singleton.mp h]
        exact Or.inl rfl

theorem foldVar_FK (prods : List PRow) (pid t : Nat) (hpid : ∃ r ∈ prods, r.pid = pid) :
    ∀ (vs : List RawVariant) (T : List VRow),
      (∀ v2 ∈ T, ∃ r ∈ prods, r.pid = v2.pid) →
      ∀ v2 ∈ vs.foldl (varUpsert pid t) T, ∃ r ∈ prods, r.pid = v2.pid := by
  intro vs
  induction vs with
  | nil => exact fun T hT => hT
  | cons v rest ih =>
    intro T hT
    rw [List.foldl_cons]
    apply ih
    intro v2 hv2
    rcases varUpsert_cases v2 hv2 with h | ⟨r0, hr0, h⟩
    · rcases hpid with ⟨r, hr, hrpid⟩
      exact ⟨r, hr, by rw [hrpid, h]⟩
    · rcases hT r0 hr0 with ⟨r, hr, hrpid⟩
      exact ⟨r, hr, by rw [hrpid, h]⟩

theorem FK_syncStep {db : DB} {domain : String} {t : Nat} {p : RawProduct}
    (h : FKOk db) : FKOk (syncStep domain t db p) := by
  unfold syncStep
  cases hx : extractNumericId p.gid with
  | none => exact h
  | some pid =>
    intro v hv
    exact foldVar_FK _ pid t upsertProduct_mem_self p.variants db.variants
      (fun v2 h2 => upsertProduct_mem_pres (h v2 h2)) v hv

theorem FK_fold {domain : String} {t : Nat} :
    ∀ (P : List RawProduct) (db : DB), FKOk db → FKOk (P.foldl (syncStep domain t) db) := by
  intro P
  induction P with
  | nil => exact fun db h => h
  | cons p rest ih =>
    intro db h
    rw [List.foldl_cons]
    exact ih _ (FK_syncStep h)

theorem FK_delete {db : DB} {ids : List Nat} (h : FKOk db) : FKOk (deletePhase db ids) := by
  unfold deletePhase
  split
  · exact h
  · intro v hv
    obtain ⟨hv1, hv2⟩ := List.mem_filter.mp hv
    obtain ⟨r, hr, hpid⟩ := h v hv1
    by_cases hrin : r.pid ∈ ids
    · exact ⟨r, List.mem_filter.mpr ⟨hr, by simpa using hrin⟩, hpid⟩
    · exfalso
      have hmem : v.pid ∈ (db.products.filter (fun q => q.pid ∉ ids)).map (fun q => q.pid) :=
        List.mem_map.mpr ⟨r, List.mem_filter.mpr ⟨hr, by simpa using hrin⟩, hpid⟩
      have hv2b : v.pid ∉ (db.products.filter (fun q => q.pid ∉ ids)).map (fun q => q.pid) := by
        simpa using hv2
      exact hv2b hmem

/-- C1 (counterexample): a run whose fetch returns the empty catalog
completes successfully, yet the pre-existing product (id 1) survives even
though its id is not in the (empty) set of resolved ids — the delete is
guarded by `if (shopifyProductIds.length > 0)`. -/
theorem C1_counterexample :
    (syncInventoryModel dbC1 [] (.ok []) none "store.myshopify.com" 0 1).result = .ok ⟨0, 0⟩ ∧
    ∃ r ∈ (syncInventoryModel dbC1 [] (.ok []) none "store.myshopify.com" 0 1).db.products,
      r.pid ∉ resolvedIds [] :=
  ⟨rfl, by decide⟩

/-- C1 (amended): after a successful sync from a state satisfying the FK
invariant, (a) provided at least one numeric id resolved from the fetch,
every surviving product row's id is in the resolved set, and (b) every
variant row's parent product id exists in the products table.  (With an
empty resolved-id set the deletion is skipped and stale products remain.) -/
theorem C1_amended (db : DB) (log : List SyncRun) (P : List RawProduct)
    (domain : String) (t1 t2 : Nat) (hfk : FKOk db) :
    (resolvedIds P ≠ [] →
      ∀ r ∈ (syncInventoryModel db log (.ok P) none domain t1 t2).db.products,
        r.pid ∈ resolvedIds P) ∧
    FKOk (syncInventoryModel db log (.ok P) none domain t1 t2).db := by
  have hdb : (syncInventoryModel db log (.ok P) none domain t1 t2).db =
      syncWrite db P domain t2 := rfl
  rw [hdb]
  constructor
  · intro hne r hr
    unfold syncWrite deletePhase at hr
    rw [if_neg hne] at hr
    simpa using (List.mem_filter.mp hr).2
  · exact FK_delete (FK_fold P db hfk)

theorem C1_witness :
    (resolvedIds rawC1 ≠ [] →
      ∀ r ∈ (syncInventoryModel dbC1w [] (.ok rawC1) none "store.myshopify.com" 0 1).db.products,
        r.pid ∈ resolvedIds rawC1) ∧
    FKOk (syncInventoryModel dbC1w [] (.ok rawC1) none "store.myshopify.com" 0 1).db :=
  C1_amended dbC1w [] rawC1 "store.myshopify.com" 0 1 (by decide)

/-! ## C3: `matchDeckList` result shape -/

theorem mkResult_requested (db : DB) (names : List String) (n : String) :
    (mkResult db names n).requested = strTrim n := by
  unfold mkResult
  rcases h : (sortedRows db (names.map normName)).filter
      (fun r => strToLower r.card_name = normName n) with _ | ⟨r, rs⟩ <;>
    simp [h]

theorem rawRows_mem {db : DB} {nn : List String} {r : QRow} (h : r ∈ rawRows db nn) :
    ∃ p ∈ db.products, ∃ v ∈ db.variants,
      v.pid = p.pid ∧ strToLower p.vals.card_name ∈ nn ∧ v.vals.quantity > 0 ∧
      r = mkQRow p v := by
  unfold rawRows at h
  rcases List.mem_flatMap.mp h with ⟨p, hp, hr⟩
  rcases List.mem_map.mp hr with ⟨v, hv, rfl⟩
  obtain ⟨hv1, hv2⟩ := List.mem_filter.mp hv
  simp only [decide_eq_true_eq] at hv2
  exact ⟨p, hp, v, hv1, hv2.1, hv2.2.1, hv2.2.2, rfl⟩

/-- C3 (counterexample): the returned `requested` field is the *trimmed*
input name, not the caller's original string. -/
theorem C3_counterexample :
    (matchDeckList (⟨[], []⟩ : DB) [" Sol Ring "]).map (fun r => r.requested) ≠
      [" Sol Ring "] := by decide

/-- C3 (amended): the output has the input's length; its i-th entry derives
from the i-th input name with surrounding whitespace trimmed (casing and
order preserved); an entry with `found = false` has an empty printings list
and card name equal to the trimmed request; and a name with no in-stock
match yields exactly the not-found placeholder. -/
theorem C3_amended (db : DB) (names : List String) :
    ((matchDeckList db names).map (fun r => r.requested) = names.map strTrim) ∧
    ((matchDeckList db names).length = names.length) ∧
    (∀ r ∈ matchDeckList db names, r.found = false →
      r.cardName = r.requested ∧ r.printings = []) ∧
    (∀ (i : Nat) (n : String), names[i]? = some n →
      (¬ ∃ p ∈ db.products, ∃ v ∈ db.variants,
          v.pid = p.pid ∧ strToLower p.vals.card_name = normName n ∧
          v.vals.quantity > 0) →
      (matchDeckList db names)[i]? = some ⟨strTrim n, false, strTrim n, []⟩) := by
  have part1 : (matchDeckList db names).map (fun r => r.requested) = names.map strTrim := by
    unfold matchDeckList
    by_cases hemp : names.isEmpty
    · rw [if_pos hemp, List.isEmpty_iff.mp hemp]
      rfl
    · rw [if_neg hemp, List.map_map]
      exact List.map_congr_left fun n _ => mkResult_requested db names n
  refine ⟨part1, ?_, ?_, ?_⟩
  · unfold matchDeckList
    by_cases hemp : names.isEmpty
    · rw [if_pos hemp, List.isEmpty_iff.mp hemp]
      rfl
    · rw [if_neg hemp, List.length_map]
  · intro r hr hfound
    unfold matchDeckList at hr
    by_cases hemp : names.isEmpty
    · rw [if_pos hemp] at hr
      cases hr
    · rw [if_neg hemp] at hr
      rcases List.mem_map.mp hr with ⟨n, _, rfl⟩
      unfold mkResult at hfound ⊢
      rcases h : (sortedRows db (names.map normName)).filter
          (fun r => strToLower r.card_name = normName n) with _ | ⟨q, qs⟩
      · rw [h]
        exact ⟨rfl, rfl⟩
      · rw [h] at hfound
        simp at hfound
  · intro i n hin hnone
    have hne : ¬ names.isEmpty := by
      intro hemp
      rw [List.isEmpty_iff.mp hemp] at hin
      simp at hin
    unfold matchDeckList
    rw [if_neg hne, List.getElem?_map, hin, Option.map_some']
    congr 1
    unfold mkResult
    rcases h : (sortedRows db (names.map normName)).filter
        (fun r => strToLower r.card_name = normName n) with _ | ⟨q, qs⟩
    · rw [h]
    · exfalso
      have hq : q ∈ (sortedRows db (names.map normName)).filter
          (fun r => strToLower r.card_name = normName n) := by
        rw [h]; exact List.mem_cons_self q qs
      obtain ⟨hq1, hq2⟩ := List.mem_filter.mp hq
      have hq1b : q ∈ rawRows db (names.map normName) := by
        unfold sortedRows at hq1
        exact (List.mem_insertionSort rowLE).mp hq1
      obtain ⟨p, hp, v, hv, hpid, _, hqty, rfl⟩ := rawRows_mem hq1b
      rw [decide_eq_true_eq] at hq2
      exact hnone ⟨p, hp, v, hv, hpid, hq2, hqty⟩

theorem C3_witness :
    ((matchDeckList (⟨[], []⟩ : DB) ["Sol Ring"]).map (fun r => r.requested) =
      ["Sol Ring"].map strTrim) ∧
    (matchDeckList (⟨[], []⟩ : DB) ["Sol Ring"])[0]? =
      some ⟨strTrim "Sol Ring", false, strTrim "Sol Ring", []⟩ :=
  ⟨(C3_amended ⟨[], []⟩ ["Sol Ring"]).1,
   (C3_amended ⟨[], []⟩ ["Sol Ring"]).2.2.2 0 "Sol Ring" (by decide) (by decide)⟩

/-! ## C4: ordering of a card's printings -/

theorem charListLtB_irrefl : ∀ as : List Char, charListLtB as as = false := by
  intro as
  induction as with
  | nil => rfl
  | cons a t ih => simp [charListLtB, lt_irrefl, ih]

theorem charListLtB_trans :
    ∀ as bs cs : List Char, charListLtB as bs = true → charListLtB bs cs = true →
      charListLtB as cs = true := by
  intro as
  induction as with
  | nil =>
    intro bs cs h1 h2
    cases bs with
    | nil => cases h1
    | cons b bt =>
      cases cs with
      | nil => cases h2
      | cons c ct => rfl
  | cons a at2 ih =>
    intro bs cs h1 h2
    cases bs with
    | nil => cases h1
    | cons b bt =>
      cases cs with
      | nil => cases h2
      | cons c ct =>
        unfold charListLtB at h1 h2 ⊢
        by_cases hab : a < b
        · by_cases hbc : b < c
          · simp [lt_trans hab hbc]
          · by_cases hcb : c < b
            · simp [hbc, hcb] at h2
            · have hbceq : b = c := le_antisymm (not_lt.mp hcb) (not_lt.mp hbc)
              simp [hbceq ▸ hab]
        · by_cases hba : b < a
          · simp [hab, hba] at h1
          · have habeq : a = b := le_antisymm (not_lt.mp hba) (not_lt.mp hab)
            subst habeq
            simp [hab] at h1 ⊢
            by_cases hac : a < c
            · simp [hac]
            · by_cases hca : c < a
              · simp [hac, hca] at h2
              · simp [hac, hca] at h2 ⊢
                exact ⟨not_lt.mp hca, ih bt ct h1 h2⟩

theorem charListLtB_eq_of_not :
    ∀ as bs : List Char, charListLtB as bs = false → charListLtB bs as = false →
      as = bs := by
  intro as
  induction as with
  | nil =>
    intro bs h1 _
    cases bs with
    | nil => rfl
    | cons b bt => cases h1
  | cons a at2 ih =>
    intro bs h1 h2
    cases bs with
    | nil => cases h2
    | cons b bt =>
      unfold charListLtB at h1 h2
      by_cases hab : a < b
      · simp [hab] at h1
      · by_cases hba : b < a
        · simp [hba, hab] at h2
        · have habeq : a = b := le_antisymm (not_lt.mp hba) (not_lt.mp hab)
          subst habeq
          simp [hab] at h1 h2
          rw [ih bt h1 h2]

theorem rowLE_total : ∀ a b : QRow, rowLE a b ∨ rowLE b a := by
  intro a b
  unfold rowLE
  cases hab : charListLtB a.card_name.toList b.card_name.toList
  · cases hba : charListLtB b.card_name.toList a.card_name.toList
    · have heq : a.card_name = b.card_name := by
        apply String.ext
        exact charListLtB_eq_of_not _ _ hab hba
      rcases lt_trichotomy a.price b.price with hp | hp | hp
      · exact Or.inl (Or.inr ⟨heq, Or.inl hp⟩)
      · rcases le_total (condCase a.condition) (condCase b.condition) with hcnd | hcnd
        · exact Or.inl (Or.inr ⟨heq, Or.inr ⟨hp, hcnd⟩⟩)
        · exact Or.inr (Or.inr ⟨heq.symm, Or.inr ⟨hp.symm, hcnd⟩⟩)
      · exact Or.inr (Or.inr ⟨heq.symm, Or.inl hp⟩)
    · exact Or.inr (Or.inl rfl)
  · exact Or.inl (Or.inl rfl)

theorem rowLE_trans : ∀ a b c : QRow, rowLE a b → rowLE b c → rowLE a c := by
  intro a b c hab hbc
  unfold rowLE at hab hbc ⊢
  rcases hab with h1 | ⟨e1, h1⟩
  · rcases hbc with h2 | ⟨e2, h2⟩
    · exact Or.inl (charListLtB_trans _ _ _ h1 h2)
    · left
      have he : b.card_name.toList = c.card_name.toList := by rw [e2]
      rwa [he] at h1
  · rcases hbc with h2 | ⟨e2, h2⟩
    · left
      have he : a.card_name.toList = b.card_name.toList := by rw [e1]
      rwa [← he] at h2
    · right
      refine ⟨e1.trans e2, ?_⟩
      rcases h1 with hp1 | ⟨ep1, hc1⟩
      · rcases h2 with hp2 | ⟨ep2, hc2⟩
        · exact Or.inl (hp1.trans hp2)
        · exact Or.inl (by rw [← ep2]; exact hp1)
      · rcases h2 with hp2 | ⟨ep2, hc2⟩
        · exact Or.inl (by rw [ep1]; exact hp2)
        · exact Or.inr ⟨ep1.trans ep2, hc1.trans hc2⟩

/-- Rows of the matcher's query carry the card name of a stored product. -/
theorem filterRow_card_name {db : DB} {names : List String} {n : String} {x : QRow}
    (hx : x ∈ (sortedRows db (names.map normName)).filter
      (fun r => strToLower r.card_name = normName n)) :
    (∃ p ∈ db.products, x.card_name = p.vals.card_name) ∧
      strToLower x.card_name = normName n := by
  obtain ⟨hx1, hx2⟩ := List.mem_filter.mp hx
  have hx1b : x ∈ rawRows db (names.map normName) := by
    unfold sortedRows at hx1
    exact (List.mem_insertionSort rowLE).mp hx1
  obtain ⟨p, hp, v, _, _, _, _, rfl⟩ := rawRows_mem hx1b
  rw [decide_eq_true_eq] at hx2
  exact ⟨⟨p, hp, rfl⟩, hx2⟩

/-- C4 (counterexample): with two in-stock products whose card names are
"AA" and "Aa", the group for "aa" lists the printings of "AA" (price 10)
before those of "Aa" (price 5): the SQL sorts by exact card name before
price, while the grouping merges names case-insensitively. -/
theorem C4_counterexample :
    ¬ ∀ c ∈ matchDeckList dbC4 ["aa"], c.printings.Pairwise printingLE := by decide

/-- C4 (amended): provided no two product rows' card names differ only in
case, every card's printings in every `matchDeckList` result are ordered by
price ascending with ties broken by the condition rank
Near Mint < Lightly Played < Moderately Played < Heavily Played < Damaged
< anything else. -/
theorem C4_amended (db : DB) (names : List String)
    (hsame : ∀ p1 ∈ db.products, ∀ p2 ∈ db.products,
      strToLower p1.vals.card_name = strToLower p2.vals.card_name →
      p1.vals.card_name = p2.vals.card_name) :
    ∀ c ∈ matchDeckList db names, c.printings.Pairwise printingLE := by
  intro c hc
  unfold matchDeckList at hc
  by_cases hemp : names.isEmpty
  · rw [if_pos hemp] at hc
    cases hc
  · rw [if_neg hemp] at hc
    rcases List.mem_map.mp hc with ⟨n, _, rfl⟩
    unfold mkResult
    rcases h : (sortedRows db (names.map normName)).filter
        (fun r => strToLower r.card_name = normName n) with _ | ⟨q, qs⟩
    · rw [h]
      exact List.Pairwise.nil
    · rw [h]
      show ((q :: qs).map toPrinting).Pairwise printingLE
      rw [List.pairwise_map]
      have hsorted : (sortedRows db (names.map normName)).Pairwise rowLE := by
        haveI h1 : IsTotal QRow rowLE := ⟨rowLE_total⟩
        haveI h2 : IsTrans QRow rowLE := ⟨fun a b c => rowLE_trans a b c⟩
        exact List.sorted_insertionSort rowLE (rawRows db (names.map normName))
      have hpair : ((sortedRows db (names.map normName)).filter
          (fun r => strToLower r.card_name = normName n)).Pairwise rowLE :=
        hsorted.sublist (List.filter_sublist _)
      rw [h] at hpair
      refine hpair.imp_of_mem ?_
      intro x y hx hy hxy
      have hx2 := @filterRow_card_name db names n x (by rw [h]; exact hx)
      have hy2 := @filterRow_card_name db names n y (by rw [h]; exact hy)
      obtain ⟨⟨px, hpx, hxcn⟩, hxkey⟩ := hx2
      obtain ⟨⟨py, hpy, hycn⟩, hykey⟩ := hy2
      have hcneq : x.card_name = y.card_name := by
        rw [hxcn, hycn]
        exact hsame px hpx py hpy (by rw [← hxcn, ← hycn, hxkey, hykey])
      rcases hxy with hlt | ⟨_, hrest⟩
      · exfalso
        rw [hcneq] at hlt
        rw [charListLtB_irrefl] at hlt
        cases hlt
      · exact hrest

theorem C4_witness :
    (∀ c ∈ matchDeckList dbC4w ["Sol Ring"], c.printings.Pairwise printingLE) ∧
    (matchDeckList dbC4w ["Sol Ring"]).map
        (fun c => c.printings.map (fun p => (p.price, p.condition))) =
      [[((3 : ℚ), some "Near Mint"), (3, some "Lightly Played"),
        (5, some "Near Mint")]] :=
  ⟨C4_amended dbC4w ["Sol Ring"] (by decide), by decide⟩

/-! ## C6: idempotence of a repeated sync

First the counterexample, then the simulation between the full write phase
and its timestamp-stripped projection, then the idempotence proof. -/

/-- C6 (counterexample): variant 10 is stored under product 2 but fetched
under product 1.  The variant upsert does not update
`shopify_product_id`, so run 1 updates the row in place (keeping parent 2)
and then cascade-deletes it with stale product 2; run 2 re-inserts it under
product 1.  The two post-run states differ in a whole variant row, not just
in `updated_at`. -/
theorem C6_counterexample :
    stripDB (syncInventoryModel
        (syncInventoryModel dbC6 [] (.ok rawC6) none "store.myshopify.com" 0 1).db
        [] (.ok rawC6) none "store.myshopify.com" 1 2).db ≠
      stripDB (syncInventoryModel dbC6 [] (.ok rawC6) none "store.myshopify.com" 0 1).db := by
  decide

theorem stripP_upsertProduct (T : List PRow) (pid : Nat) (v : PVals) (t : Nat) :
    (upsertProduct T pid v t).map stripP = upsertProductS (T.map stripP) pid v t := by
  unfold upsertProduct upsertProductS
  have hiff : (∃ r ∈ T.map stripP, r.pid = pid) ↔ ∃ r ∈ T, r.pid = pid := by
    constructor
    · rintro ⟨r, hr, hpid⟩
      rcases List.mem_map.mp hr with ⟨r0, hr0, rfl⟩
      exact ⟨r0, hr0, hpid⟩
    · rintro ⟨r0, hr0, hpid⟩
      exact ⟨stripP r0, List.mem_map.mpr ⟨r0, hr0, rfl⟩, hpid⟩
  by_cases h : ∃ r ∈ T, r.pid = pid
  · rw [if_pos h, if_pos (hiff.mpr h), List.map_map, List.map_map]
    apply List.map_congr_left
    intro r _
    by_cases hr : r.pid = pid
    · simp [stripP, hr]
    · simp [stripP, hr]
  · rw [if_neg h, if_neg (fun hc => h (hiff.mp hc)), List.map_append]
    rfl

theorem stripV_upsertVariant (T : List VRow) (vid pid : Nat) (v : VVals) (t : Nat) :
    (upsertVariant T vid pid v t).map stripV = upsertVariantS (T.map stripV) vid pid v t := by
  unfold upsertVariant upsertVariantS
  have hiff : (∃ r ∈ T.map stripV, r.vid = vid) ↔ ∃ r ∈ T, r.vid = vid := by
    constructor
    · rintro ⟨r, hr, hvid⟩
      rcases List.mem_map.mp hr with ⟨r0, hr0, rfl⟩
      exact ⟨r0, hr0, hvid⟩
    · rintro ⟨r0, hr0, hvid⟩
      exact ⟨stripV r0, List.mem_map.mpr ⟨r0, hr0, rfl⟩, hvid⟩
  by_cases h : ∃ r ∈ T, r.vid = vid
  · rw [if_pos h, if_pos (hiff.mpr h), List.map_map, List.map_map]
    apply List.map_congr_left
    intro r _
    by_cases hr : r.vid = vid
    · simp [stripV, hr]
    · simp [stripV, hr]
  · rw [if_neg h, if_neg (fun hc => h (hiff.mp hc)), List.map_append]
    rfl

theorem stripV_varUpsert (pid t : Nat) (T : List VRow) (v : RawVariant) :
    (varUpsert pid t T v).map stripV = varUpsertS pid t (T.map stripV) v := by
  unfold varUpsert varUpsertS
  cases hx : extractNumericId v.gid
  · rfl
  · exact stripV_upsertVariant T _ pid (varVals v) t

theorem strip_syncStep (domain : String) (t : Nat) (db : DB) (p : RawProduct) :
    stripDB (syncStep domain t db p) = syncStepS domain t (stripDB db) p := by
  unfold syncStep syncStepS stripDB
  cases hx : extractNumericId p.gid
  · rfl
  · simp only []
    congr 1
    · exact stripP_upsertProduct db.products _ (prodVals domain p) t
    · exact (List.foldl_hom (fun T => T.map stripV) (varUpsert _ t) (varUpsertS _ t)
        p.variants db.variants (fun x y => (stripV_varUpsert _ t x y).symm)).symm

theorem strip_deletePhase (db : DB) (ids : List Nat) :
    stripDB (deletePhase db ids) = deletePhaseS (stripDB db) ids := by
  unfold deletePhase deletePhaseS stripDB
  by_cases h : ids = []
  · rw [if_pos h, if_pos h]
  · rw [if_neg h, if_neg h]
    simp only []
    congr 1
    · rw [List.filter_map]
      rfl
    · rw [List.filter_map]
      apply congrArg
      apply List.filter_congr
      intro r _
      rw [List.filter_map, List.map_map]
      rfl

theorem strip_syncWrite (db : DB) (P : List RawProduct) (domain : String) (t : Nat) :
    stripDB (syncWrite db P domain t) = syncWriteS (stripDB db) P domain t := by
  unfold syncWrite syncWriteS
  rw [strip_deletePhase]
  congr 1
  exact (List.foldl_hom stripDB (syncStep domain t) (syncStepS domain t) P db
    (fun x y => (strip_syncStep domain t x y).symm)).symm

/-! ### Stripped-level upsert lemmas -/

theorem upsertProductS_id {T : List PRowS} {pid : Nat} {v : PVals} {t : Nat}
    (hex : ∃ r ∈ T, r.pid = pid) (hvals : ∀ r ∈ T, r.pid = pid → r.vals = v) :
    upsertProductS T pid v t = T := by
  unfold upsertProductS
  rw [if_pos hex]
  apply map_id_on
  intro r hr
  by_cases hp : r.pid = pid
  · rw [if_pos hp, ← hvals r hr hp]
  · rw [if_neg hp]

theorem upsertVariantS_id {T : List VRowS} {vid pid : Nat} {v : VVals} {t : Nat}
    (hex : ∃ r ∈ T, r.vid = vid) (hvals : ∀ r ∈ T, r.vid = vid → r.vals = v) :
    upsertVariantS T vid pid v t = T := by
  unfold upsertVariantS
  rw [if_pos hex]
  apply map_id_on
  intro r hr
  by_cases hp : r.vid = vid
  · rw [if_pos hp, ← hvals r hr hp]
  · rw [if_neg hp]

theorem upsertProductS_establish (T : List PRowS) (pid : Nat) (v : PVals) (t : Nat) :
    (∃ r ∈ upsertProductS T pid v t, r.pid = pid) ∧
    (∀ r ∈ upsertProductS T pid v t, r.pid = pid → r.vals = v) := by
  unfold upsertProductS
  by_cases h : ∃ r ∈ T, r.pid = pid
  · rw [if_pos h]
    constructor
    · rcases h with ⟨r0, hr0, hp⟩
      refine ⟨_, List.mem_map.mpr ⟨r0, hr0, rfl⟩, ?_⟩
      rw [if_pos hp]
      exact hp
    · intro r hr hp2
      rcases List.mem_map.mp hr with ⟨r0, hr0, rfl⟩
      by_cases h0 : r0.pid = pid
      · rw [if_pos h0]
      · rw [if_neg h0] at hp2 ⊢
        exact absurd hp2 h0
  · rw [if_neg h]
    constructor
    · exact ⟨⟨pid, v, t⟩, List.mem_append_right _ (List.mem_singleton.mpr rfl), rfl⟩
    · intro r hr hp2
      rcases List.mem_append.mp hr with h1 | h1
      · exact absurd ⟨r, h1, hp2⟩ h
      · rw [List.mem_singleton.mp h1]

theorem upsertVariantS_vals_establish (T : List VRowS) (vid pid : Nat) (v : VVals) (t : Nat) :
    ∀ r ∈ upsertVariantS T vid pid v t, r.vid = vid → r.vals = v := by
  unfold upsertVariantS
  by_cases h : ∃ r ∈ T, r.vid = vid
  · rw [if_pos h]
    intro r hr hp2
    rcases List.mem_map.mp hr with ⟨r0, hr0, rfl⟩
    by_cases h0 : r0.vid = vid
    · rw [if_pos h0]
    · rw [if_neg h0] at hp2 ⊢
      exact absurd hp2 h0
  · rw [if_neg h]
    intro r hr hp2
    rcases List.mem_append.mp hr with h1 | h1
    · exact absurd ⟨r, h1, hp2⟩ h
    · rw [List.mem_singleton.mp h1]

theorem upsertProductS_mem_pres {T : List PRowS} {pid : Nat} {v : PVals} {t q : Nat}
    (h : ∃ r ∈ T, r.pid = q) : ∃ r ∈ upsertProductS T pid v t, r.pid = q := by
  unfold upsertProductS
  split
  · rcases h with ⟨r0, hr0, hq⟩
    refine ⟨_, List.mem_map.mpr ⟨r0, hr0, rfl⟩, ?_⟩
    split <;> simpa using hq
  · rcases h with ⟨r0, hr0, hq⟩
    exact ⟨r0, List.mem_append_left _ hr0, hq⟩

theorem upsertVariantS_mem_pres {T : List VRowS} {vid pid : Nat} {v : VVals} {t q : Nat}
    (h : ∃ r ∈ T, r.vid = q) : ∃ r ∈ upsertVariantS T vid pid v t, r.vid = q := by
  unfold upsertVariantS
  split
  · rcases h with ⟨r0, hr0, hq⟩
    refine ⟨_, List.mem_map.mpr ⟨r0, hr0, rfl⟩, ?_⟩
    split <;> simpa using hq
  · rcases h with ⟨r0, hr0, hq⟩
    exact ⟨r0, List.mem_append_left _ hr0, hq⟩

theorem upsertProductS_vals_pres {T : List PRowS} {pid : Nat} {v : PVals} {t q : Nat}
    {w : PVals} (hne : q ≠ pid) (h : ∀ r ∈ T, r.pid = q → r.vals = w) :
    ∀ r ∈ upsertProductS T pid v t, r.pid = q → r.vals = w := by
  unfold upsertProductS
  split
  · intro r hr hq
    rcases List.mem_map.mp hr with ⟨r0, hr0, rfl⟩
    by_cases h0 : r0.pid = pid
    · rw [if_pos h0] at hq ⊢
      exact absurd (hq ▸ h0.symm).symm hne
    · rw [if_neg h0] at hq ⊢
      exact h r0 hr0 hq
  · intro r hr hq
    rcases List.mem_append.mp hr with h1 | h1
    · exact h r h1 hq
    · rw [List.mem_singleton.mp h1] at hq
      exact absurd hq.symm hne

theorem upsertVariantS_vals_pres {T : List VRowS} {vid pid : Nat} {v : VVals} {t q : Nat}
    {w : VVals} (hne : q ≠ vid) (h : ∀ r ∈ T, r.vid = q → r.vals = w) :
    ∀ r ∈ upsertVariantS T vid pid v t, r.vid = q → r.vals = w := by
  unfold upsertVariantS
  split
  · intro r hr hq
    rcases List.mem_map.mp hr with ⟨r0, hr0, rfl⟩
    by_cases h0 : r0.vid = vid
    · rw [if_pos h0] at hq ⊢
      exact absurd (hq ▸ h0.symm).symm hne
    · rw [if_neg h0] at hq ⊢
      exact h r0 hr0 hq
  · intro r hr hq
    rcases List.mem_append.mp hr with h1 | h1
    · exact h r h1 hq
    · rw [List.mem_singleton.mp h1] at hq
      exact absurd hq.symm hne

/-! ### Variant-fold invariants -/

theorem foldVarS_vals_frame {pid t vid : Nat} {w : VVals} :
    ∀ (vs : List RawVariant) (T : List VRowS), vid ∉ vidsOf vs →
      (∀ r ∈ T, r.vid = vid → r.vals = w) →
      ∀ r ∈ vs.foldl (varUpsertS pid t) T, r.vid = vid → r.vals = w := by
  intro vs
  induction vs with
  | nil => exact fun T _ hT => hT
  | cons v1 rest ih =>
    intro T hnotin hT
    rw [List.foldl_cons]
    have hrest : vid ∉ vidsOf rest := by
      intro hmem
      exact hnotin (by unfold vidsOf at hmem ⊢; rw [List.filterMap_cons]; split <;> simp [hmem])
    apply ih _ hrest
    unfold varUpsertS
    cases hx : extractNumericId v1.gid with
    | none => exact hT
    | some vid2 =>
      have hne : vid ≠ vid2 := by
        intro he
        apply hnotin
        unfold vidsOf
        exact List.mem_filterMap.mpr ⟨v1, List.mem_cons_self v1 rest, by rw [hx, he]⟩
      exact upsertVariantS_vals_pres hne hT

theorem foldVarS_mem_pres {pid t q : Nat} :
    ∀ (vs : List RawVariant) (T : List VRowS), (∃ r ∈ T, r.vid = q) →
      ∃ r ∈ vs.foldl (varUpsertS pid t) T, r.vid = q := by
  intro vs
  induction vs with
  | nil => exact fun T hT => hT
  | cons v1 rest ih =>
    intro T hT
    rw [List.foldl_cons]
    apply ih
    unfold varUpsertS
    cases hx : extractNumericId v1.gid with
    | none => exact hT
    | some vid2 => exact upsertVariantS_mem_pres hT

theorem foldVarS_vals_establish {pid t : Nat} :
    ∀ (vs : List RawVariant) (T : List VRowS), (vidsOf vs).Nodup →
      ∀ v0 ∈ vs, ∀ vid, extractNumericId v0.gid = some vid →
        ∀ r ∈ vs.foldl (varUpsertS pid t) T, r.vid = vid → r.vals = varVals v0 := by
  intro vs
  induction vs with
  | nil => intro T _ v0 hv0; cases hv0
  | cons v1 rest ih =>
    intro T hnd v0 hv0 vid hx
    rcases List.mem_cons.mp hv0 with rfl | hv0r
    · rw [List.foldl_cons]
      have hvids : vidsOf (v0 :: rest) = vid :: vidsOf rest := by
        unfold vidsOf
        rw [List.filterMap_cons, hx]
      rw [hvids] at hnd
      have hnotin : vid ∉ vidsOf rest := (List.nodup_cons.mp hnd).1
      apply foldVarS_vals_frame rest _ hnotin
      unfold varUpsertS
      rw [hx]
      exact upsertVariantS_vals_establish T vid pid (varVals v0) t
    · rw [List.foldl_cons]
      have hnd2 : (vidsOf rest).Nodup := by
        unfold vidsOf at hnd ⊢
        rw [List.filterMap_cons] at hnd
        rcases hx1 : extractNumericId v1.gid with _ | vid1 <;> rw [hx1] at hnd
        · exact hnd
        · exact (List.nodup_cons.mp hnd).2
      exact ih _ hnd2 v0 hv0r vid hx

/-! ### Product-fold invariants and the idempotence theorem -/

theorem resolvedIds_mem {P : List RawProduct} {p : RawProduct} {pid : Nat}
    (hp : p ∈ P) (hx : extractNumericId p.gid = some pid) : pid ∈ resolvedIds P :=
  List.mem_filterMap.mpr ⟨p, hp, hx⟩

theorem fetchedVids_mem {P : List RawProduct} {p : RawProduct} {pid : Nat}
    {v0 : RawVariant} {vid : Nat} (hp : p ∈ P) (hx : extractNumericId p.gid = some pid)
    (hv0 : v0 ∈ p.variants) (hxv : extractNumericId v0.gid = some vid) :
    vid ∈ fetchedVids P := by
  unfold fetchedVids
  apply List.mem_flatMap.mpr
  refine ⟨p, List.mem_filter.mpr ⟨hp, by simp [hx]⟩, ?_⟩
  unfold vidsOf
  exact List.mem_filterMap.mpr ⟨v0, hv0, hxv⟩

theorem resolvedIds_cons_none {p : RawProduct} {rest : List RawProduct}
    (hx : extractNumericId p.gid = none) : resolvedIds (p :: rest) = resolvedIds rest := by
  unfold resolvedIds
  rw [List.filterMap_cons, hx]

theorem resolvedIds_cons_some {p : RawProduct} {rest : List RawProduct} {pid : Nat}
    (hx : extractNumericId p.gid = some pid) :
    resolvedIds (p :: rest) = pid :: resolvedIds rest := by
  unfold resolvedIds
  rw [List.filterMap_cons, hx]

theorem fetchedVids_cons_none {p : RawProduct} {rest : List RawProduct}
    (hx : extractNumericId p.gid = none) : fetchedVids (p :: rest) = fetchedVids rest := by
  unfold fetchedVids
  rw [List.filter_cons]
  simp [hx]

theorem fetchedVids_cons_some {p : RawProduct} {rest : List RawProduct} {pid : Nat}
    (hx : extractNumericId p.gid = some pid) :
    fetchedVids (p :: rest) = vidsOf p.variants ++ fetchedVids rest := by
  unfold fetchedVids
  rw [List.filter_cons]
  simp [hx]

theorem foldP_products_frame {domain : String} {t : Nat} {pid : Nat} {w : PVals} :
    ∀ (P : List RawProduct) (y : DBS), pid ∉ resolvedIds P →
      ((∃ r ∈ y.products, r.pid = pid) →
        ∃ r ∈ (P.foldl (syncStepS domain t) y).products, r.pid = pid) ∧
      ((∀ r ∈ y.products, r.pid = pid → r.vals = w) →
        ∀ r ∈ (P.foldl (syncStepS domain t) y).products, r.pid = pid → r.vals = w) := by
  intro P
  induction P with
  | nil => exact fun y _ => ⟨id, id⟩
  | cons p1 rest ih =>
    intro y hnot
    rw [List.foldl_cons]
    cases hx : extractNumericId p1.gid with
    | none =>
      have hstep : syncStepS domain t y p1 = y := by simp [syncStepS, hx]
      rw [hstep]
      apply ih
      rwa [resolvedIds_cons_none hx] at hnot
    | some pid1 =>
      have hnot2 : pid ∉ resolvedIds rest := by
        rw [resolvedIds_cons_some hx] at hnot
        exact fun h => hnot (List.mem_cons_of_mem _ h)
      have hne : pid ≠ pid1 := by
        intro he
        rw [resolvedIds_cons_some hx] at hnot
        exact hnot (he ▸ List.mem_cons_self _ _)
      have hprod : (syncStepS domain t y p1).products =
          upsertProductS y.products pid1 (prodVals domain p1) t := by
        simp [syncStepS, hx]
      constructor
      · intro hex
        exact (ih _ hnot2).1 (by rw [hprod]; exact upsertProductS_mem_pres hex)
      · intro hvals
        exact (ih _ hnot2).2 (by rw [hprod]; exact upsertProductS_vals_pres hne hvals)

theorem foldP_variants_frame {domain : String} {t : Nat} {vid : Nat} {w : VVals} :
    ∀ (P : List RawProduct) (y : DBS), vid ∉ fetchedVids P →
      (∀ r ∈ y.variants, r.vid = vid → r.vals = w) →
      ∀ r ∈ (P.foldl (syncStepS domain t) y).variants, r.vid = vid → r.vals = w := by
  intro P
  induction P with
  | nil => exact fun y _ h => h
  | cons p1 rest ih =>
    intro y hnot hvals
    rw [List.foldl_cons]
    cases hx : extractNumericId p1.gid with
    | none =>
      have hstep : syncStepS domain t y p1 = y := by simp [syncStepS, hx]
      rw [hstep]
      apply ih
      · rwa [fetchedVids_cons_none hx] at hnot
      · exact hvals
    | some pid1 =>
      rw [fetchedVids_cons_some hx] at hnot
      have hnotA : vid ∉ vidsOf p1.variants := fun h => hnot (List.mem_append_left _ h)
      have hnotB : vid ∉ fetchedVids rest := fun h => hnot (List.mem_append_right _ h)
      have hv : (syncStepS domain t y p1).variants =
          p1.variants.foldl (varUpsertS pid1 t) y.variants := by
        simp [syncStepS, hx]
      apply ih _ hnotB
      rw [hv]
      exact foldVarS_vals_frame p1.variants y.variants hnotA hvals

theorem foldP_products_inv {domain : String} {t : Nat} :
    ∀ (P : List RawProduct) (x : DBS), (resolvedIds P).Nodup →
      ∀ p ∈ P, ∀ pid, extractNumericId p.gid = some pid →
        (∃ r ∈ (P.foldl (syncStepS domain t) x).products, r.pid = pid) ∧
        (∀ r ∈ (P.foldl (syncStepS domain t) x).products, r.pid = pid →
          r.vals = prodVals domain p) := by
  intro P
  induction P with
  | nil => intro x _ p hp; cases hp
  | cons p1 rest ih =>
    intro x hnd p hp pid hx
    rcases List.mem_cons.mp hp with rfl | hpr
    · rw [List.foldl_cons]
      rw [resolvedIds_cons_some hx] at hnd
      have hnotin : pid ∉ resolvedIds rest := (List.nodup_cons.mp hnd).1
      have hprod : (syncStepS domain t x p).products =
          upsertProductS x.products pid (prodVals domain p) t := by
        simp [syncStepS, hx]
      have hest := upsertProductS_establish x.products pid (prodVals domain p) t
      have hframe := @foldP_products_frame domain t pid (prodVals domain p) rest
        (syncStepS domain t x p) hnotin
      exact ⟨hframe.1 (by rw [hprod]; exact hest.1), hframe.2 (by rw [hprod]; exact hest.2)⟩
    · rw [List.foldl_cons]
      have hnd2 : (resolvedIds rest).Nodup := by
        rcases hx1 : extractNumericId p1.gid with _ | pid1
        · rwa [resolvedIds_cons_none hx1] at hnd
        · rw [resolvedIds_cons_some hx1] at hnd
          exact (List.nodup_cons.mp hnd).2
      exact ih _ hnd2 p hpr pid hx

theorem foldP_variants_inv {domain : String} {t : Nat} :
    ∀ (P : List RawProduct) (x : DBS), (fetchedVids P).Nodup →
      ∀ p ∈ P, ∀ pid, extractNumericId p.gid = some pid →
        ∀ v0 ∈ p.variants, ∀ vid, extractNumericId v0.gid = some vid →
          ∀ r ∈ (P.foldl (syncStepS domain t) x).variants, r.vid = vid →
            r.vals = varVals v0 := by
  intro P
  induction P with
  | nil => intro x _ p hp; cases hp
  | cons p1 rest ih =>
    intro x hnd p hp pid hx v0 hv0 vid hxv
    rcases List.mem_cons.mp hp with rfl | hpr
    · rw [List.foldl_cons]
      rw [fetchedVids_cons_some hx] at hnd
      obtain ⟨hndA, _, hdisj⟩ := List.nodup_append.mp hnd
      have hvidA : vid ∈ vidsOf p.variants := by
        unfold vidsOf
        exact List.mem_filterMap.mpr ⟨v0, hv0, hxv⟩
      have hnotrest : vid ∉ fetchedVids rest := fun hm => hdisj hvidA hm
      have hv : (syncStepS domain t x p).variants =
          p.variants.foldl (varUpsertS pid t) x.variants := by
        simp [syncStepS, hx]
      apply foldP_variants_frame rest _ hnotrest
      rw [hv]
      exact foldVarS_vals_establish p.variants x.variants hndA v0 hv0 vid hxv
    · rw [List.foldl_cons]
      have hnd2 : (fetchedVids rest).Nodup := by
        rcases hx1 : extractNumericId p1.gid with _ | pid1
        · rwa [fetchedVids_cons_none hx1] at hnd
        · rw [fetchedVids_cons_some hx1] at hnd
          exact (List.nodup_append.mp hnd).2.1
      exact ih _ hnd2 p hpr pid hx v0 hv0 vid hxv

theorem deletePhaseS_products_sublist (db : DBS) (ids : List Nat) :
    (deletePhaseS db ids).products.Sublist db.products := by
  unfold deletePhaseS
  split
  · exact List.Sublist.refl _
  · exact List.filter_sublist _

theorem deletePhaseS_variants_sublist (db : DBS) (ids : List Nat) :
    (deletePhaseS db ids).variants.Sublist db.variants := by
  unfold deletePhaseS
  split
  · exact List.Sublist.refl _
  · exact List.filter_sublist _

theorem deletePhaseS_products_mem {db : DBS} {ids : List Nat} {pid : Nat}
    (hin : pid ∈ ids) (h : ∃ r ∈ db.products, r.pid = pid) :
    ∃ r ∈ (deletePhaseS db ids).products, r.pid = pid := by
  unfold deletePhaseS
  split
  · exact h
  · rcases h with ⟨r, hr, hp⟩
    exact ⟨r, List.mem_filter.mpr ⟨hr, by simp [hp, hin]⟩, hp⟩

theorem syncWriteS_idem (x : DBS) (P : List RawProduct) (domain : String) (t1 t2 : Nat)
    (h1 : (resolvedIds P).Nodup) (h2 : (fetchedVids P).Nodup)
    (hkept : ∀ vid ∈ fetchedVids P, ∃ r ∈ (syncWriteS x P domain t1).variants, r.vid = vid) :
    syncWriteS (syncWriteS x P domain t1) P domain t2 = syncWriteS x P domain t1 := by
  by_cases hids : resolvedIds P = []
  · have hnone : ∀ p ∈ P, extractNumericId p.gid = none :=
      List.filterMap_eq_nil_iff.mp hids
    have hw : ∀ (t0 : Nat) (z : DBS), syncWriteS z P domain t0 = z := by
      intro t0 z
      unfold syncWriteS
      have hfold : P.foldl (syncStepS domain t0) z = z := by
        apply foldl_fixed
        intro p hp
        simp [syncStepS, hnone p hp]
      rw [hfold, hids]
      unfold deletePhaseS
      rw [if_pos rfl]
    rw [hw t1 x, hw t2 x]
  · have hprod_ids : ∀ r ∈ (syncWriteS x P domain t1).products, r.pid ∈ resolvedIds P := by
      intro r hr
      unfold syncWriteS deletePhaseS at hr
      rw [if_neg hids] at hr
      simpa using (List.mem_filter.mp hr).2
    have hstep : ∀ p ∈ P,
        syncStepS domain t2 (syncWriteS x P domain t1) p = syncWriteS x P domain t1 := by
      intro p hp
      cases hx : extractNumericId p.gid with
      | none => simp [syncStepS, hx]
      | some pid =>
        have hz := @foldP_products_inv domain t1 P x h1 p hp pid hx
        have hmemP : ∃ r ∈ (syncWriteS x P domain t1).products, r.pid = pid := by
          unfold syncWriteS
          exact deletePhaseS_products_mem (resolvedIds_mem hp hx) hz.1
        have hvalsP : ∀ r ∈ (syncWriteS x P domain t1).products, r.pid = pid →
            r.vals = prodVals domain p := by
          intro r hr hpid2
          apply hz.2 r _ hpid2
          unfold syncWriteS at hr
          exact (deletePhaseS_products_sublist _ _).subset hr
        have hup : upsertProductS (syncWriteS x P domain t1).products pid
            (prodVals domain p) t2 = (syncWriteS x P domain t1).products :=
          upsertProductS_id hmemP hvalsP
        have hvfold : p.variants.foldl (varUpsertS pid t2)
            (syncWriteS x P domain t1).variants = (syncWriteS x P domain t1).variants := by
          apply foldl_fixed
          intro v0 hv0
          cases hxv : extractNumericId v0.gid with
          | none => simp [varUpsertS, hxv]
          | some vid =>
            have hex := hkept vid (fetchedVids_mem hp hx hv0 hxv)
            have hvv : ∀ r ∈ (syncWriteS x P domain t1).variants, r.vid = vid →
                r.vals = varVals v0 := by
              intro r hr hvid2
              apply @foldP_variants_inv domain t1 P x h2 p hp pid hx v0 hv0 vid hxv r _ hvid2
              unfold syncWriteS at hr
              exact (deletePhaseS_variants_sublist _ _).subset hr
            have hred : varUpsertS pid t2 (syncWriteS x P domain t1).variants v0 =
                upsertVariantS (syncWriteS x P domain t1).variants vid pid (varVals v0) t2 := by
              simp [varUpsertS, hxv]
            rw [hred]
            exact upsertVariantS_id hex hvv
        have hred2 : syncStepS domain t2 (syncWriteS x P domain t1) p =
            ⟨upsertProductS (syncWriteS x P domain t1).products pid (prodVals domain p) t2,
             p.variants.foldl (varUpsertS pid t2) (syncWriteS x P domain t1).variants⟩ := by
          simp [syncStepS, hx]
        rw [hred2, hup, hvfold]
    have hfold2 := foldl_fixed (syncStepS domain t2) (syncWriteS x P domain t1) P hstep
    have hgoal : syncWriteS (syncWriteS x P domain t1) P domain t2 =
        deletePhaseS (P.foldl (syncStepS domain t2) (syncWriteS x P domain t1))
          (resolvedIds P) := rfl
    rw [hgoal, hfold2]
    unfold deletePhaseS
    rw [if_neg hids]
    have hf0 : (syncWriteS x P domain t1).products.filter
        (fun q => q.pid ∉ resolvedIds P) = [] :=
      List.filter_eq_nil_iff.mpr fun r hr => by simpa using hprod_ids r hr
    rw [hf0]
    have hf1 : (syncWriteS x P domain t1).products.filter
        (fun r => r.pid ∈ resolvedIds P) = (syncWriteS x P domain t1).products :=
      List.filter_eq_self.mpr fun r hr => by simpa using hprod_ids r hr
    rw [hf1]
    simp

/-- C6 (amended): for a catalog with pairwise-distinct resolved product ids
and variant ids (as the upstream guarantees), running two successful syncs
in a row against the unchanged catalog leaves the products and variants
tables identical in every column except `updated_at` — provided the first
run's stale-product cascade did not delete any variant listed in the fetch
(equivalently: every fetched variant id is still present after run 1).
Without that proviso a variant re-parented upstream is cascade-deleted by
run 1 and re-inserted by run 2, changing the tables beyond `updated_at`. -/
theorem C6_amended (db : DB) (log : List SyncRun) (P : List RawProduct) (domain : String)
    (t0 t1 t2 t3 : Nat)
    (h1 : (resolvedIds P).Nodup) (h2 : (fetchedVids P).Nodup)
    (hkept : ∀ vid ∈ fetchedVids P,
      ∃ r ∈ (syncInventoryModel db log (.ok P) none domain t0 t1).db.variants, r.vid = vid) :
    stripDB (syncInventoryModel (syncInventoryModel db log (.ok P) none domain t0 t1).db
        (syncInventoryModel db log (.ok P) none domain t0 t1).log
        (.ok P) none domain t2 t3).db =
      stripDB (syncInventoryModel db log (.ok P) none domain t0 t1).db := by
  show stripDB (syncWrite (syncWrite db P domain t1) P domain t3) =
    stripDB (syncWrite db P domain t1)
  rw [strip_syncWrite, strip_syncWrite]
  apply syncWriteS_idem (stripDB db) P domain t1 t3 h1 h2
  intro vid hvid
  obtain ⟨r, hr, hvr⟩ := hkept vid hvid
  refine ⟨stripV r, ?_, hvr⟩
  rw [← strip_syncWrite]
  exact List.mem_map.mpr ⟨r, hr, rfl⟩

theorem C6_witness :
    stripDB (syncInventoryModel
        (syncInventoryModel ⟨[], []⟩ [] (.ok rawC6) none "store.myshopify.com" 0 1).db
        (syncInventoryModel ⟨[], []⟩ [] (.ok rawC6) none "store.myshopify.com" 0 1).log
        (.ok rawC6) none "store.myshopify.com" 1 2).db =
      stripDB (syncInventoryModel ⟨[], []⟩ [] (.ok rawC6) none "store.myshopify.com" 0 1).db :=
  C6_amended ⟨[], []⟩ [] rawC6 "store.myshopify.com" 0 1 1 2 (by decide) (by decide) (by decide)

/-! ## C7: `parseProductTitle` round trip -/

theorem dropWhile_append_of_all {p : Char → Bool} {w : List Char}
    (h : ∀ c ∈ w, p c = true) (r : List Char) :
    (w ++ r).dropWhile p = r.dropWhile p := by
  induction w with
  | nil => rfl
  | cons c cs ih =>
    rw [List.cons_append, List.dropWhile_cons,
      if_pos (h c (List.mem_cons_self c cs))]
    exact ih fun d hd => h d (List.mem_cons_of_mem c hd)

theorem dropWhile_append_of_exists {p : Char → Bool} {x : List Char}
    (h : x.all p = false) (r : List Char) :
    (x ++ r).dropWhile p = x.dropWhile p ++ r := by
  induction x with
  | nil => cases h
  | cons c cs ih =>
    rw [List.all_cons] at h
    by_cases hc : p c = true
    · rw [hc] at h
      simp only [Bool.true_and] at h
      rw [List.cons_append, List.dropWhile_cons, if_pos hc,
        List.dropWhile_cons, if_pos hc]
      exact ih h
    · have hc2 : p c = false := by
        rwa [Bool.not_eq_true] at hc
      rw [List.cons_append, List.dropWhile_cons, if_neg hc,
        List.dropWhile_cons, if_neg hc, List.cons_append]

theorem takeWhile_ne_paren {y t : List Char} (h : ∀ c ∈ y, c ≠ ')') :
    (y ++ ')' :: t).takeWhile (fun x => x ≠ ')') = y ∧
    (y ++ ')' :: t).dropWhile (fun x => x ≠ ')') = ')' :: t := by
  induction y with
  | nil =>
    constructor
    · rw [List.nil_append, List.takeWhile_cons]
      simp
    · rw [List.nil_append, List.dropWhile_cons]
      simp
  | cons c cs ih =>
    have hc : c ≠ ')' := h c (List.mem_cons_self c cs)
    have ih2 := ih fun d hd => h d (List.mem_cons_of_mem c hd)
    constructor
    · rw [List.cons_append, List.takeWhile_cons, if_pos (by simpa using hc), ih2.1]
    · rw [List.cons_append, List.dropWhile_cons, if_pos (by simpa using hc), ih2.2]

theorem matchTail_found {w y : List Char} (hw : ∀ c ∈ w, Char.isWhitespace c = true)
    (hy : y ≠ []) (hy2 : ∀ c ∈ y, c ≠ ')') :
    matchTail (w ++ '(' :: (y ++ [')'])) = some y := by
  unfold matchTail
  rw [dropWhile_append_of_all hw, List.dropWhile_cons,
    if_neg (by decide : ¬ Char.isWhitespace '(' = true)]
  rw [List.head?_cons, List.tail_cons]
  rw [(takeWhile_ne_paren hy2).2, (takeWhile_ne_paren hy2).1]
  rw [List.head?_cons, List.tail_cons]
  rw [if_pos rfl, if_pos rfl, if_pos ⟨hy, rfl⟩]

theorem matchTail_stuck {x r : List Char} (hx : x.all Char.isWhitespace = false)
    (hpar : '(' ∉ x) : matchTail (x ++ r) = none := by
  unfold matchTail
  rw [dropWhile_append_of_exists hx]
  rcases hd : x.dropWhile Char.isWhitespace with _ | ⟨c, cs⟩
  · exfalso
    have hall := List.dropWhile_eq_nil_iff.mp hd
    exact (by simp [hx] : ¬ x.all Char.isWhitespace = true) (List.all_eq_true.mpr hall)
  · have hcx : c ∈ x := (List.dropWhile_sublist _).subset (hd ▸ List.mem_cons_self c cs)
    rw [List.cons_append, List.head?_cons]
    have hne : ¬ (some c = some '(') := by
      intro he
      have hce : c = '(' := Option.some.inj he
      exact hpar (hce ▸ hcx)
    rw [if_neg hne]

theorem scanName_found {y : List Char} (hy : y ≠ []) (hy2 : ∀ c ∈ y, c ≠ ')') :
    ∀ (x : List Char) (acc : List Char), x ≠ [] → '(' ∉ x →
      scanName acc (x ++ '(' :: (y ++ [')'])) = some (acc ++ nmOf x, y) := by
  intro x
  induction x with
  | nil => intro acc h; exact absurd rfl h
  | cons c cs ih =>
    intro acc _ hpar
    show scanName acc (c :: (cs ++ '(' :: (y ++ [')']))) = _
    unfold scanName
    by_cases hall : cs.all Char.isWhitespace = true
    · rw [matchTail_found (List.all_eq_true.mp hall) hy hy2]
      simp [nmOf, hall]
    · have hx : cs.all Char.isWhitespace = false := by
        rwa [Bool.not_eq_true] at hall
      rw [matchTail_stuck hx (fun hm => hpar (List.mem_cons_of_mem _ hm))]
      have hcs : cs ≠ [] := by
        intro he
        rw [he] at hx
        cases hx
      rw [ih (acc ++ [c]) hcs (fun hm => hpar (List.mem_cons_of_mem _ hm))]
      simp [nmOf, hall, List.append_assoc]

theorem dropTrailingWs_nil_iff (l : List Char) :
    dropTrailingWs l = [] ↔ l.all Char.isWhitespace = true := by
  unfold dropTrailingWs
  rw [List.reverse_eq_nil_iff, List.dropWhile_eq_nil_iff, ← List.all_reverse,
    List.all_eq_true]

theorem dropTrailingWs_cons_all {c : Char} {cs : List Char}
    (h : cs.all Char.isWhitespace = true) :
    dropTrailingWs (c :: cs) = dropTrailingWs [c] := by
  unfold dropTrailingWs
  rw [List.reverse_cons, dropWhile_append_of_all
    (fun d hd => List.all_eq_true.mp h d (List.mem_reverse.mp hd)) [c]]
  rfl

theorem dropTrailingWs_cons_not {c : Char} {cs : List Char}
    (h : cs.all Char.isWhitespace = false) :
    dropTrailingWs (c :: cs) = c :: dropTrailingWs cs := by
  unfold dropTrailingWs
  rw [List.reverse_cons, dropWhile_append_of_exists (by rwa [List.all_reverse]),
    List.reverse_append]
  rfl

theorem dropTrailingWs_nmOf (x : List Char) :
    dropTrailingWs (nmOf x) = dropTrailingWs x := by
  induction x with
  | nil => rfl
  | cons c cs ih =>
    unfold nmOf
    by_cases hall : cs.all Char.isWhitespace = true
    · rw [if_pos hall, dropTrailingWs_cons_all hall]
    · have hx : cs.all Char.isWhitespace = false := by rwa [Bool.not_eq_true] at hall
      rw [if_neg hall, dropTrailingWs_cons_not hx]
      have hnm : (nmOf cs).all Char.isWhitespace = false := by
        rcases hnm2 : (nmOf cs).all Char.isWhitespace with _ | _
        · rfl
        · exfalso
          have h1 : dropTrailingWs (nmOf cs) = [] := (dropTrailingWs_nil_iff _).mpr hnm2
          rw [ih] at h1
          rw [(dropTrailingWs_nil_iff _).mp h1] at hx
          cases hx
      rw [dropTrailingWs_cons_not hnm, ih]

theorem listTrim_nmOf (x : List Char) : listTrim (nmOf x) = listTrim x := by
  unfold listTrim
  rw [dropTrailingWs_nmOf]

theorem matchTail_lastNonWs {cs i : List Char} (h : matchTail cs = some i) :
    (cs.reverse.dropWhile Char.isWhitespace).head? = some ')' := by
  unfold matchTail at h
  split_ifs at h with h1 h2 h3
  rcases hd : cs.dropWhile Char.isWhitespace with _ | ⟨a0, A⟩
  · rw [hd] at h1
    cases h1
  · rw [hd, List.head?_cons] at h1
    rw [hd, List.tail_cons] at h2 h3
    have ha0 : a0 = '(' := Option.some.inj h1
    rcases hd2 : A.dropWhile (fun x => x ≠ ')') with _ | ⟨d0, tail⟩
    · rw [hd2] at h2
      cases h2
    · rw [hd2, List.head?_cons] at h2
      rw [hd2, List.tail_cons] at h3
      have hd0 : d0 = ')' := Option.some.inj h2
      have hcs : cs = cs.takeWhile Char.isWhitespace ++
          (a0 :: (A.takeWhile (fun x => x ≠ ')') ++ (d0 :: tail))) := by
        conv_lhs =>
          rw [← List.takeWhile_append_dropWhile (p := Char.isWhitespace) (l := cs)]
        rw [hd]
        conv_lhs =>
          rw [← List.takeWhile_append_dropWhile (p := fun x => x ≠ ')') (l := A)]
        rw [hd2]
      rw [hcs, ha0, hd0]
      have hws : ∀ e ∈ tail.reverse, Char.isWhitespace e = true := fun e he =>
        List.all_eq_true.mp h3.2 e (List.mem_reverse.mp he)
      simp only [List.reverse_append, List.reverse_cons, List.append_assoc,
        List.singleton_append, List.cons_append, List.nil_append]
      rw [dropWhile_append_of_all hws, List.dropWhile_cons,
        if_neg (by decide : ¬ Char.isWhitespace ')' = true), List.head?_cons]

theorem scanName_suffix :
    ∀ (cs acc : List Char) (r : List Char × List Char), scanName acc cs = some r →
      ∃ pre suf, cs = pre ++ suf ∧ ∃ i, matchTail suf = some i := by
  intro cs
  induction cs with
  | nil => intro acc r h; cases h
  | cons c cs2 ih =>
    intro acc r h
    unfold scanName at h
    rcases hm : matchTail cs2 with _ | i <;> rw [hm] at h
    · rcases ih (acc ++ [c]) r h with ⟨pre, suf, hsplit, hi⟩
      exact ⟨c :: pre, suf, by rw [hsplit, List.cons_append], hi⟩
    · exact ⟨[c], cs2, rfl, i, hm⟩

/-- C7: a title of the form `X(Y)` — `X` nonempty and free of `(`, `Y`
nonempty and free of `)` — parses to card name `X` and set name `Y`, both
trimmed of surrounding whitespace; and a title whose last non-whitespace
character is not `)` (no parenthesized suffix) parses to the whole trimmed
title with a null set name. -/
theorem C7_parse_product_title :
    (∀ x y : List Char, x ≠ [] → '(' ∉ x → y ≠ [] → ')' ∉ y →
      parseProductTitle (String.mk (x ++ '(' :: (y ++ [')']))) =
        ⟨String.mk (listTrim x), some (String.mk (listTrim y))⟩) ∧
    (∀ t : String, (t.toList.reverse.dropWhile Char.isWhitespace).head? ≠ some ')' →
      parseProductTitle t = ⟨String.mk (listTrim t.toList), none⟩) := by
  constructor
  · intro x y hx hpar hy hyp
    unfold parseProductTitle
    have htl : (String.mk (x ++ '(' :: (y ++ [')']))).toList = x ++ '(' :: (y ++ [')']) :=
      rfl
    rw [htl, scanName_found hy (fun c hc he => hyp (he ▸ hc)) x [] hx hpar]
    rw [List.nil_append]
    show TitleParse.mk (String.mk (listTrim (nmOf x))) (some (String.mk (listTrim y))) = _
    rw [listTrim_nmOf]
  · intro t h
    rcases hs : scanName [] t.toList with _ | ⟨nm, inner⟩
    · unfold parseProductTitle
      rw [hs]
    · exfalso
      obtain ⟨pre, suf, hsplit, i, hmt⟩ := scanName_suffix _ _ _ hs
      have h1 := matchTail_lastNonWs hmt
      apply h
      rw [hsplit, List.reverse_append]
      rcases hd : suf.reverse.dropWhile Char.isWhitespace with _ | ⟨c0, l⟩
      · rw [hd] at h1
        cases h1
      · rw [hd] at h1
        have hc0 : c0 = ')' := by
          simpa using h1
        have hnotall : suf.reverse.all Char.isWhitespace = false := by
          rcases hna : suf.reverse.all Char.isWhitespace with _ | _
          · rfl
          · exfalso
            have : suf.reverse.dropWhile Char.isWhitespace = [] :=
              List.dropWhile_eq_nil_iff.mpr (List.all_eq_true.mp hna)
            rw [this] at hd
            cases hd
        rw [dropWhile_append_of_exists hnotall, hd, hc0]
        rfl

theorem C7_witness :
    parseProductTitle
        (String.mk ("Fell the Profane ".toList ++ '(' :: ("Modern Horizons 3".toList ++ [')']))) =
      ⟨String.mk (listTrim "Fell the Profane ".toList),
       some (String.mk (listTrim "Modern Horizons 3".toList))⟩ ∧
    parseProductTitle "Sol Ring" = ⟨String.mk (listTrim "Sol Ring".toList), none⟩ :=
  ⟨C7_parse_product_title.1 "Fell the Profane ".toList "Modern Horizons 3".toList
    (by decide) (by decide) (by decide) (by decide),
   C7_parse_product_title.2 "Sol Ring" (by decide)⟩

/-! ## C8: `parseTextDeckList` never aborts; bad quantity lines are errors -/

theorem lineParse_shape (cs : List Char) :
    (∃ n q, lineParse cs = .card n q) ∨ (∃ m, lineParse cs = .err m) := by
  unfold lineParse
  rcases hm : matchQtyLine cs with _ | ⟨q, nm⟩
  · simp only [hm]
    by_cases hc : cs.length > 1 ∧ ¬ cs.all Char.isDigit = true
    · rw [if_pos hc]
      exact Or.inl ⟨_, _, rfl⟩
    · rw [if_neg hc]
      exact Or.inr ⟨_, rfl⟩
  · simp only [hm]
    by_cases hc : stripName nm ≠ [] ∧ q > 0
    · rw [if_pos hc]
      exact Or.inl ⟨_, _, rfl⟩
    · rw [if_neg hc]
      exact Or.inr ⟨_, rfl⟩

theorem lineOutcome_skip_iff (l : String) :
    lineOutcome l = .skip ↔
      ((strTrim l).toList = [] ∨ isHeader (strTrim l) = true) := by
  unfold lineOutcome
  by_cases h1 : (strTrim l).toList = []
  · rw [if_pos h1]
    exact ⟨fun _ => Or.inl h1, fun _ => rfl⟩
  · rw [if_neg h1]
    by_cases h2 : isHeader (strTrim l) = true
    · rw [if_pos h2]
      exact ⟨fun _ => Or.inr h2, fun _ => rfl⟩
    · rw [if_neg h2]
      constructor
      · intro hc
        rcases lineParse_shape (strTrim l).toList with ⟨n, q, hs⟩ | ⟨m, hs⟩ <;>
          rw [hs] at hc <;> cases hc
      · intro hc
        rcases hc with hc | hc
        · exact absurd hc h1
        · exact absurd hc h2

theorem contributes_iff (l : String) :
    contributes l = true ↔ ¬ lineOutcome l = .skip := by
  unfold contributes
  rw [lineOutcome_skip_iff, not_or]
  simp [List.isEmpty_iff]

theorem parseFold_count :
    ∀ (lines : List String) (acc : ParsedDeck × Nat),
      (lines.foldl parseStep acc).1.cards.length +
        (lines.foldl parseStep acc).1.errors.length =
      acc.1.cards.length + acc.1.errors.length + lines.countP contributes := by
  intro lines
  induction lines with
  | nil => intro acc; simp
  | cons l rest ih =>
    intro acc
    rw [List.foldl_cons, List.countP_cons, ih]
    rcases ho : lineOutcome l with _ | ⟨n, q⟩ | m
    · have hc : contributes l = false := by
        cases hcv : contributes l
        · rfl
        · exact absurd ho ((contributes_iff l).mp hcv)
      have hps : parseStep acc l = (acc.1, acc.2 + 1) := by
        unfold parseStep
        rw [ho]
      rw [hps, hc]
      simp
    · have hc : contributes l = true :=
        (contributes_iff l).mpr (by rw [ho]; intro h; cases h)
      have hps : parseStep acc l =
          (⟨acc.1.cards ++ [⟨n, q⟩], acc.1.errors⟩, acc.2 + 1) := by
        unfold parseStep
        rw [ho]
      rw [hps, hc]
      simp
      omega
    · have hc : contributes l = true :=
        (contributes_iff l).mpr (by rw [ho]; intro h; cases h)
      have hps : parseStep acc l =
          (⟨acc.1.cards, acc.1.errors ++ [⟨acc.2 + 1, strTrim l, m⟩]⟩, acc.2 + 1) := by
        unfold parseStep
        rw [ho]
      rw [hps, hc]
      simp
      omega

/-- C8: (1) the parser is total and per line exact: the number of card
entries plus error entries equals the number of non-blank, non-header
lines; (2) every such line yields exactly one card or one error; (3) a
line matching the quantity pattern whose quantity is non-positive or whose
name is empty after stripping becomes an error, not a card; (4) the line
"0 Nothing" yields zero cards and one error. -/
theorem C8_deck_text_parsing :
    (∀ text : String,
      (parseTextDeckList text).cards.length + (parseTextDeckList text).errors.length =
        ((splitLines text.toList).map String.mk).countP contributes) ∧
    (∀ l : String, contributes l = true →
      (∃ n q, lineOutcome l = .card n q) ∨ (∃ m, lineOutcome l = .err m)) ∧
    (∀ (l : String) (q : Nat) (nm : List Char), (strTrim l).toList ≠ [] →
      isHeader (strTrim l) = false →
      matchQtyLine (strTrim l).toList = some (q, nm) →
      (q = 0 ∨ stripName nm = []) →
      lineOutcome l = .err "Invalid quantity or empty card name") ∧
    parseTextDeckList "0 Nothing" =
      ⟨[], [⟨1, "0 Nothing", "Invalid quantity or empty card name"⟩]⟩ := by
  refine ⟨?_, ?_, ?_, by decide⟩
  · intro text
    rw [show parseTextDeckList text =
      (((splitLines text.toList).map String.mk).foldl parseStep (⟨[], []⟩, 0)).1 from rfl]
    rw [parseFold_count]
    simp
  · intro l h
    have hne := (contributes_iff l).mp h
    rcases ho : lineOutcome l with _ | ⟨n, q⟩ | m
    · exact absurd ho hne
    · exact Or.inl ⟨n, q, rfl⟩
    · exact Or.inr ⟨m, rfl⟩
  · intro l q nm hb hh hm hbad
    unfold lineOutcome
    rw [if_neg hb, if_neg (by simp [hh])]
    unfold lineParse
    simp only [hm]
    have hcond : ¬ (stripName nm ≠ [] ∧ q > 0) := by
      rcases hbad with hq | hn
      · intro hc
        exact absurd hc.2 (by omega)
      · intro hc
        exact hc.1 hn
    rw [if_neg hcond]

theorem C8_witness :
    lineOutcome "0 Nothing" = .err "Invalid quantity or empty card name" ∧
    ((∃ n q, lineOutcome "2 Island" = .card n q) ∨
      (∃ m, lineOutcome "2 Island" = .err m)) :=
  ⟨C8_deck_text_parsing.2.2.1 "0 Nothing" 0 "Nothing".toList (by decide) (by decide)
    (by decide) (by decide),
   C8_deck_text_parsing.2.1 "2 Island" (by decide)⟩

end DeckBuilder
